/-
Verification development for the swim repository: a SWIM-protocol
membership engine.  The Go sources are shallowly embedded:

* `rpq` models src/internal/rpq/rpq.go together with the Go standard
  library `container/heap` algorithms it builds on.  The secondary
  key→index map of the Go code is represented implicitly: for a non-zero
  key, its index entry is the position of the unique item carrying that
  key (`indexOf`), and the zero key "" is never indexed, exactly as in
  the Go code where only non-zero keys are inserted into the map.
* `rrr` models src/internal/roundrobinrandom (the round-robin-random
  Order).  Randomness (`rand.Shuffle`, `rand.Intn`, `rand.Perm`) is
  supplied explicitly as streams of natural-number choices; a choice is
  reduced modulo the permitted range, so every possible random outcome
  of the Go code corresponds to some choice stream.
* `fsm` models the `supersedes` relation of src/fsm.go.
* `engine` models the stateMachine of the current engine source
  (stateMachine, tick, timeout, receive, processMsg, updateStatus,
  remove, makePacket, addMemo) and the Node.PostMemo entry point.
  Go maps are represented as association lists iterated in list order;
  Go's `nil`-pointer dereferences and out-of-range panics are modelled
  by `Option`, `none` meaning the Go code panics.
* `dissem` models the dissemination-factor arithmetic (`logn3` and
  `suspicionTimeout`), idealizing float64 arithmetic by real arithmetic.
-/
import Mathlib

/-- Node and memo identifiers: base32 strings in Go, opaque strings here.
The zero value of the Go type is the empty string. -/
abbrev NodeId := String

/-- `lswap l i j` swaps the elements at positions `i` and `j`, the effect
of Go's two-assignment swap `a[i], a[j] = a[j], a[i]`.  Out-of-range
indices leave the list unchanged (the Go code never produces them). -/
def lswap {α : Type} (l : List α) (i j : Nat) : List α :=
  match l.get? i, l.get? j with
  | some a, some b => (l.set i b).set j a
  | _, _ => l

namespace rpq

/-- An item of the recurrent priority queue: a key-value pair with the
count of how many times it has been returned (rpq.go, type item). -/
structure Item (V : Type) where
  key : String
  value : V
  count : Nat
deriving DecidableEq, Repr

variable {V : Type}

/-- `Less i j` of the Go priorityQueue: counts compared at positions. -/
def lessAt (l : List (Item V)) (i j : Nat) : Bool :=
  match l.get? i, l.get? j with
  | some a, some b => a.count < b.count
  | _, _ => false

/-- Go container/heap `up`, with an explicit fuel bounding the number
of iterations.  The parent index `(j-1)/2` is strictly smaller than a
non-zero `j`, so any fuel ≥ j makes the fuel bound unreachable: `upFuel
l j j` computes exactly the Go loop. -/
def upFuel (l : List (Item V)) : Nat → Nat → List (Item V)
  | 0, _ => l
  | fuel + 1, j =>
    if j = 0 then l
    else if lessAt l j ((j - 1) / 2) then
      upFuel (lswap l ((j - 1) / 2) j) fuel ((j - 1) / 2)
    else l

/-- Go container/heap `up`. -/
def up (l : List (Item V)) (j : Nat) : List (Item V) := upFuel l j j

/-- The child chosen by Go container/heap `down` at parent `i`: the
left child `j1 = 2i+1`, or the right child `j2 = j1+1` when it exists
and has the smaller count. -/
def childIdx (l : List (Item V)) (i n : Nat) : Nat :=
  if 2 * i + 2 < n then
    (if lessAt l (2 * i + 2) (2 * i + 1) then 2 * i + 2 else 2 * i + 1)
  else 2 * i + 1

/-- Go container/heap `down` inner loop, with an explicit fuel bounding
the number of iterations; it returns the list and the final index `i`
(the Go function returns `i > i0`).  Each iteration strictly increases
`i` below `n`, so any fuel ≥ n makes the fuel bound unreachable:
`downFuel l n i n` computes exactly the Go loop. -/
def downFuel (l : List (Item V)) : Nat → Nat → Nat → List (Item V) × Nat
  | 0, i, _ => (l, i)
  | fuel + 1, i, n =>
    if n ≤ 2 * i + 1 then (l, i)
    else if lessAt l (childIdx l i n) i then
      downFuel (lswap l i (childIdx l i n)) fuel (childIdx l i n) n
    else (l, i)

/-- Go container/heap `down`: the Bool reports whether the element moved. -/
def down (l : List (Item V)) (i0 n : Nat) : List (Item V) × Bool :=
  let r := downFuel l n i0 n
  (r.1, decide (i0 < r.2))

/-- Go container/heap `Fix`. -/
def heapFix (l : List (Item V)) (i : Nat) : List (Item V) :=
  let r := down l i l.length
  if r.2 then r.1 else up r.1 i

/-- Go container/heap `Push` (append, then sift up). -/
def heapPush (l : List (Item V)) (x : Item V) : List (Item V) :=
  up (l ++ [x]) (l.length)

/-- Go container/heap `Pop`: swap root to the end, sift down the first
n-1 positions, then remove the last element.  `none` models the Go
panic on an empty heap. -/
def heapPop (l : List (Item V)) : Option (Item V × List (Item V)) :=
  match l with
  | [] => none
  | _ :: _ =>
    let n := l.length - 1
    let l1 := lswap l 0 n
    let l2 := (down l1 0 n).1
    match l2.getLast? with
    | some it => some (it, l2.dropLast)
    | none => none

/-- Go container/heap `Remove` at index `i`.  The empty case models the
Go panic. -/
def heapRemove (l : List (Item V)) (i : Nat) : List (Item V) :=
  match l with
  | [] => []
  | _ :: _ =>
    let n := l.length - 1
    let l1 :=
      if i ≠ n then
        let l2 := lswap l i n
        let r := down l2 i n
        if r.2 then r.1 else up r.1 i
      else l
    l1.dropLast

/-- A recurrent priority queue (rpq.go, type Queue), with the index map
represented implicitly by `indexOf`.  The quota closure is supplied at
each pop, mirroring the Go code's call of `q.quota()` at pop time. -/
structure Queue (V : Type) where
  items : List (Item V)
deriving DecidableEq, Repr

/-- Position of a non-zero key in the heap array: the contents of the Go
index map (which never holds the zero key ""). -/
def indexOf (l : List (Item V)) (k : String) : Option Nat :=
  if k = "" then none else l.findIdx? (fun it => it.key == k)

/-- Number of items in the Queue (rpq.go, Len). -/
def Len (q : Queue V) : Nat := q.items.length

/-- rpq.go `Push` (named `Upsert` at the engine call sites): replace the
value and reset the count if the key is present, else insert with
count 0. -/
def Upsert (q : Queue V) (key : String) (value : V) : Queue V :=
  match indexOf q.items key with
  | some i => ⟨heapFix (q.items.set i ⟨key, value, 0⟩) i⟩
  | none => ⟨heapPush q.items ⟨key, value, 0⟩⟩

/-- rpq.go `Pop`: return the root value, increment its count, evict it
if the count reached `quota`, else re-heapify.  `none` models the Go
panic (`q.pq.items[0]` on an empty queue). -/
def Pop (q : Queue V) (quota : Int) : Option (V × Queue V) :=
  match q.items with
  | [] => none
  | root :: rest =>
    let value := root.value
    let items1 := { root with count := root.count + 1 } :: rest
    if (root.count + 1 : Int) ≥ quota then
      match heapPop items1 with
      | some (_, l2) => some (value, ⟨l2⟩)
      | none => none
    else
      some (value, ⟨heapFix items1 0⟩)

/-- The count at position `i` (0 for an out-of-range index). -/
def countAt (l : List (Item V)) (i : Nat) : Nat :=
  ((l.get? i).map Item.count).getD 0

/-- The reverse loop of rpq.go `PopN`: for `i = n-1 … 0`, remove the
item if its (already incremented) count reached the quota, else fix. -/
def popNLoop (l : List (Item V)) (quota : Int) : Nat → List (Item V)
  | 0 => l
  | i + 1 =>
    let l1 := if (countAt l i : Int) ≥ quota then heapRemove l i else heapFix l i
    popNLoop l1 quota i

/-- rpq.go `PopN`: take the first `min n Len` heap-array items, record
their values, increment their counts, then run the reverse
remove-or-fix loop. -/
def PopN (q : Queue V) (n : Nat) (quota : Int) : List V × Queue V :=
  let n := min n q.items.length
  let values := (q.items.take n).map Item.value
  let items1 := q.items.mapIdx (fun i it => if i < n then { it with count := it.count + 1 } else it)
  (values, ⟨popNLoop items1 quota n⟩)

/-- rpq.go `Remove`: delete the item at the key's index, if any. -/
def Remove (q : Queue V) (key : String) : Queue V :=
  match indexOf q.items key with
  | some i => ⟨heapRemove q.items i⟩
  | none => q

/-- The empty queue produced by rpq.go `New`. -/
def new : Queue V := ⟨[]⟩

end rpq

namespace rrr

/-- The roundrobinrandom Order: a sequence of ids and a cursor. -/
structure Order where
  a : List NodeId
  next : Nat
deriving DecidableEq, Repr

/-- `rand.Shuffle` (Fisher-Yates): for `i = n-1 … 1` swap position `i`
with a chosen position `j ∈ [0, i]`.  The choices are supplied as a
stream; each is reduced into the range Go's `rand.Intn(i+1)` returns. -/
def shuffleAux (l : List NodeId) (cs : List Nat) : Nat → List NodeId
  | 0 => l
  | i + 1 => shuffleAux (lswap l (i + 1) (cs.headD 0 % (i + 2))) cs.tail i

/-- Shuffle the whole list (Go `rand.Shuffle(len(o.a), o.swap)`). -/
def shuffle (l : List NodeId) (cs : List Nat) : List NodeId :=
  shuffleAux l cs (l.length - 1)

/-- Order.Next: return the cursor element and advance, shuffling and
resetting the cursor first when a round has ended; an empty Order
yields "".  (After a shuffle the cursor is 0, the returned element is
position 0 and the cursor advances to 1.) -/
def Next (o : Order) (cs : List Nat) : NodeId × Order :=
  if o.a.isEmpty then ("", o)
  else if o.next = o.a.length then
    (((shuffle o.a cs).get? 0).getD "", { a := shuffle o.a cs, next := 1 })
  else ((o.a.get? o.next).getD "", { o with next := o.next + 1 })

/-- Order.addAt: append, then swap into position; an insertion into the
visited prefix bumps the cursor instead. -/
def addAt (o : Order) (t : NodeId) (k : Nat) : Order :=
  let a := o.a ++ [t]
  let last := a.length - 1
  if k < o.next then { a := lswap a o.next last, next := o.next + 1 }
  else { a := lswap a k last, next := o.next }

/-- Order.Add: insert at a random position in `[0, len]`; the random
choice is an explicit argument reduced into range. -/
def Add (o : Order) (t : NodeId) (c : Nat) : Order :=
  addAt o t (c % (o.a.length + 1))

/-- Order.removeAt. -/
def removeAt (o : Order) (k : Nat) : Order :=
  let s :=
    if k < o.next then (lswap o.a k (o.next - 1), o.next - 1, o.next - 1)
    else (o.a, k, o.next)
  let a := s.1
  let k1 := s.2.1
  let nx := s.2.2
  { a := (lswap a k1 (a.length - 1)).dropLast, next := nx }

/-- Order.Remove: delete the first occurrence of `t`, if any. -/
def Remove (o : Order) (t : NodeId) : Order :=
  match o.a.findIdx? (· == t) with
  | some i => removeAt o i
  | none => o

/-- The collection loop of Order.IndependentSample. -/
def sampleLoop (a : List NodeId) (n : Nat) (exclude : NodeId) :
    List Nat → List NodeId → List NodeId
  | [], acc => acc
  | i :: rest, acc =>
    let t := (a.get? i).getD ""
    if t == exclude then sampleLoop a n exclude rest acc
    else
      let acc1 := acc ++ [t]
      if acc1.length = n then acc1 else sampleLoop a n exclude rest acc1

/-- Order.IndependentSample: walk a random permutation of the indices
(modelled by the same Fisher-Yates shuffle as `rand.Perm`), collecting
up to `n` elements other than `exclude`. -/
def IndependentSample (o : Order) (n : Nat) (exclude : NodeId) (cs : List Nat) :
    List NodeId :=
  let idxs := shuffleIdx (List.range o.a.length) cs
  sampleLoop o.a n exclude idxs []
where
  /-- Fisher-Yates on an index list, as `rand.Perm` produces. -/
  shuffleIdx (l : List Nat) (cs : List Nat) : List Nat :=
    go l cs (l.length - 1)
  go (l : List Nat) (cs : List Nat) : Nat → List Nat
    | 0 => l
    | i + 1 => go (lswap l (i + 1) (cs.headD 0 % (i + 2))) cs.tail i

end rrr

namespace fsm

/-- A node's membership status (fsm.go, type status). -/
inductive Status where
  | alive
  | suspected
  | failed
deriving DecidableEq, Repr

/-- A membership message (fsm.go, type message). -/
structure Msg where
  typ : Status
  id : NodeId
  incarnation : Int
deriving DecidableEq, Repr

/-- fsm.go `supersedes`, with Go's nil pointers modelled by `none`. -/
def supersedes (a b : Option Msg) : Bool :=
  match a, b with
  | none, _ => false
  | some _, none => true
  | some a, some b =>
    if a.id ≠ b.id then false
    else if b.typ = .failed then false
    else if a.typ = .failed then true
    else if a.incarnation = b.incarnation then a.typ = .suspected && b.typ = .alive
    else a.incarnation > b.incarnation

/-- The supersedes relation as the specification states it: null never
supersedes; anything non-null supersedes null; messages about different
ids never supersede; nothing supersedes Failed; Failed supersedes any
non-Failed; among non-Failed messages about the same id, strictly
higher incarnation wins, and at equal incarnation only Suspected over
Alive. -/
def supersedesSpec (a b : Option Msg) : Bool :=
  match a, b with
  | none, _ => false
  | some _, none => true
  | some a, some b =>
    if a.id ≠ b.id then false
    else if b.typ = .failed then false
    else if a.typ = .failed then true
    else
      decide (a.incarnation > b.incarnation) ||
        (decide (a.incarnation = b.incarnation) &&
          (a.typ = .suspected && b.typ = .alive))

end fsm

namespace engine

/-- The meaning of a packet (ping / pingReq / ack). -/
inductive PacketType where
  | ping
  | pingReq
  | ack
deriving DecidableEq, Repr

/-- The meaning of a message (alive / suspected / failed / memo). -/
inductive MsgType where
  | alive
  | suspected
  | failed
  | memo
deriving DecidableEq, Repr

/-- A message of the current engine.  `netip.AddrPort` is modelled as a
natural number whose zero value is `0`; a byte body is a list of
naturals.  Messages are values: the engine never stores a nil message
pointer in a packet it builds. -/
structure Message where
  typ : MsgType
  NodeID : NodeId
  Addr : Nat
  Incarnation : Int
  MemoID : NodeId
  Body : List Nat
deriving DecidableEq, Repr

/-- A network packet of the current engine. -/
structure Packet where
  typ : PacketType
  remoteID : NodeId
  remoteAddr : Nat
  TargetID : NodeId
  TargetAddr : Nat
  Msgs : List Message
deriving DecidableEq, Repr

/-- An id's membership information (type profile). -/
structure Profile where
  incarnation : Int
  contacted : Bool
  addr : Nat
deriving DecidableEq, Repr

/-- A membership change delivered to the host (type Update). -/
structure Update where
  ID : NodeId
  IsMember : Bool
  Addr : Nat
deriving DecidableEq, Repr

/-- A received memo delivered to the host (type Memo). -/
structure Memo where
  SrcID : NodeId
  SrcAddr : Nat
  Body : List Nat
deriving DecidableEq, Repr

/-- Association-list lookup: Go map read `l[k]`.  Keys are unique in
every list the engine builds, so first-match semantics model the map. -/
def lookupA {α : Type} : List (NodeId × α) → NodeId → Option α
  | [], _ => none
  | p :: rest, k => if p.1 = k then some p.2 else lookupA rest k

/-- Association-list write: Go map write `l[k] = v` (overwrite or
append). -/
def insertA {α : Type} : List (NodeId × α) → NodeId → α → List (NodeId × α)
  | [], k, v => [(k, v)]
  | p :: rest, k, v =>
    if p.1 = k then (k, v) :: rest else p :: insertA rest k v

/-- Association-list delete: Go `delete(l, k)`. -/
def eraseA {α : Type} : List (NodeId × α) → NodeId → List (NodeId × α)
  | [], _ => []
  | p :: rest, k => if p.1 = k then rest else p :: eraseA rest k

/-- The keys of an association list. -/
def keys {α : Type} (l : List (NodeId × α)) : List NodeId := l.map (·.1)

/-- Update the value stored under a key in place, Go `l[k].f = …`
through the stored pointer. -/
def updateProfile : List (NodeId × Profile) → NodeId → (Profile → Profile) →
    List (NodeId × Profile)
  | [], _, _ => []
  | p :: rest, k, f =>
    if p.1 = k then (p.1, f p.2) :: rest else p :: updateProfile rest k f

/-- Set insertion: Go `l[k] = true` on a map-as-set. -/
def insertS (l : List NodeId) (k : NodeId) : List NodeId :=
  if k ∈ l then l else l ++ [k]

/-- The stateMachine of the current engine.  The two configuration
closures (`quota` for the two RPQs and the inlined suspicion-timeout
formula) read `len(s.members)` when called, so the operations below
take them as functions of the member count. -/
structure StateM where
  id : NodeId
  incarnation : Int
  members : List (NodeId × Profile)
  suspects : List (NodeId × Nat)
  removed : List NodeId
  order : rrr.Order
  msgQueue : rpq.Queue Message
  memoQueue : rpq.Queue Message
  seenMemos : List NodeId
  pingTarget : NodeId
  gotAck : Bool
  pingReqs : List (NodeId × NodeId)
  nPingReqs : Nat
  maxMsgs : Nat
deriving DecidableEq, Repr

/-- newStateMachine with the freshly minted random id supplied
explicitly. -/
def newStateMachine (i : NodeId) : StateM :=
  { id := i, incarnation := 0, members := [], suspects := [], removed := [],
    order := ⟨[], 0⟩, msgQueue := rpq.new, memoQueue := rpq.new,
    seenMemos := [], pingTarget := "", gotAck := false, pingReqs := [],
    nPingReqs := 2, maxMsgs := 6 }

/-- isMember. -/
def isMember (s : StateM) (x : NodeId) : Bool := (lookupA s.members x).isSome

/-- isSuspect. -/
def isSuspect (s : StateM) (x : NodeId) : Bool := (lookupA s.suspects x).isSome

/-- aliveMessage: reports the local node as alive (Addr left zero). -/
def aliveMessage (s : StateM) : Message :=
  { typ := .alive, NodeID := s.id, Addr := 0, Incarnation := s.incarnation,
    MemoID := "", Body := [] }

/-- remove: dismiss an id, emitting an Update if it was a member. -/
def remove (s : StateM) (x : NodeId) : StateM × List Update :=
  match lookupA s.members x with
  | none => (s, [])
  | some p =>
    ({ s with
        members := eraseA s.members x,
        suspects := eraseA s.suspects x,
        removed := insertS s.removed x,
        order := rrr.Remove s.order x },
      [{ ID := x, IsMember := false, Addr := p.addr }])

/-- isMemberNews: whether a message carries new membership information.
(The Go nil-message check is omitted: messages are values here.) -/
def isMemberNews (s : StateM) (m : Message) : Bool :=
  if m.typ = .memo then false
  else
    match lookupA s.members m.NodeID with
    | none => ¬ m.NodeID ∈ s.removed
    | some p =>
      if m.typ = .failed then true
      else if m.Incarnation = p.incarnation then
        m.typ = .suspected && ¬ isSuspect s m.NodeID
      else m.Incarnation > p.incarnation

/-- The join sub-step of updateStatus: a message about a non-member
creates a fresh profile, adds the id to the order (at the random
position `c`) and emits the join Update. -/
def joinStep (s : StateM) (m : Message) (c : Nat) : StateM × List Update :=
  if isMember s m.NodeID then (s, [])
  else
    ({ s with
        members := insertA s.members m.NodeID ⟨0, false, 0⟩,
        order := rrr.Add s.order m.NodeID c },
      [{ ID := m.NodeID, IsMember := true, Addr := m.Addr }])

/-- The profile-recording sub-step of updateStatus: store the message's
incarnation and address in the subject's profile. -/
def recordMsg (s : StateM) (m : Message) : StateM :=
  { s with members := updateProfile s.members m.NodeID (fun p => { p with incarnation := m.Incarnation, addr := m.Addr }) }

/-- The suspicion sub-step of updateStatus: Alive clears the suspicion
entry, Suspected (re)sets it to 0. -/
def suspectUpdate (s : StateM) (m : Message) : StateM :=
  match m.typ with
  | .alive => { s with suspects := eraseA s.suspects m.NodeID }
  | .suspected => { s with suspects := insertA s.suspects m.NodeID 0 }
  | _ => s

/-- updateStatus: apply a news message to the member table; `c` is the
random insertion choice consumed by `order.Add` on a join. -/
def updateStatus (s : StateM) (m : Message) (c : Nat) : StateM × List Update :=
  if m.typ = .failed then remove s m.NodeID
  else (suspectUpdate (recordMsg (joinStep s m c).1 m) m, (joinStep s m c).2)

/-- The suspicion-refutation step of processMsg: increment the local
incarnation and enqueue an Alive message carrying it. -/
def selfRefute (s : StateM) : StateM :=
  { s with
    incarnation := s.incarnation + 1,
    msgQueue := rpq.Upsert s.msgQueue s.id
      { typ := .alive, NodeID := s.id, Addr := 0,
        Incarnation := s.incarnation + 1, MemoID := "", Body := [] } }

/-- The memo-acceptance step of processMsg: mark the memo id seen and
enqueue the message into the memo RPQ. -/
def acceptMemo (s : StateM) (m : Message) : StateM :=
  { s with
    seenMemos := insertS s.seenMemos m.MemoID,
    memoQueue := rpq.Upsert s.memoQueue m.MemoID m }

/-- The Memo event delivered to the host for a received memo message. -/
def memoEvt (m : Message) : Memo :=
  { SrcID := m.NodeID, SrcAddr := m.Addr, Body := m.Body }

/-- processMsg: handle one received message; the final Bool reports
whether the engine can continue participating. -/
def processMsg (s : StateM) (m : Message) (c : Nat) :
    StateM × List Update × List Memo × Bool :=
  if m.NodeID = s.id then
    ((if m.typ = .suspected ∧ m.Incarnation = s.incarnation then selfRefute s
      else s), [], [], ¬ m.typ = .failed)
  else if m.typ = .memo then
    if m.MemoID ∈ s.seenMemos then (s, [], [], true)
    else (acceptMemo s m, [], [memoEvt m], true)
  else if isMemberNews s m then
    ({ (updateStatus s m c).1 with
        msgQueue := rpq.Upsert (updateStatus s m c).1.msgQueue m.NodeID m },
      (updateStatus s m c).2, [], true)
  else (s, [], [], true)

/-- The introductory-alive step of makePacket: on first contact with
`dst`, set the contacted flag and start the message list with an alive
message about the local node. -/
def introStep (s : StateM) (dst : NodeId) (p : Profile) :
    List Message × StateM :=
  if ¬ p.contacted then
    ([aliveMessage s],
      { s with members :=
          updateProfile s.members dst (fun q => { q with contacted := true }) })
  else ([], s)

/-- The memo-queue step of makePacket: pop one memo when the memo RPQ
is non-empty.  `none` models the rpq.Pop panic branch (unreachable, by
the Len guard). -/
def popMemoStep (q : rpq.Queue Message) (quota : Int) :
    Option (List Message × rpq.Queue Message) :=
  if rpq.Len q > 0 then
    match rpq.Pop q quota with
    | some (v, q1) => some ([v], q1)
    | none => none
  else some ([], q)

/-- The final assembly of makePacket: fill the remaining space with up
to `maxMsgs - len(msgs)` messages popped from the membership RPQ and
build the packet.  `j` is the introStep result, `r` the popMemoStep
result. -/
def assemblePacket (quotaF : Nat → Int) (typ : PacketType)
    (dst target : NodeId) (targetAddr : Nat) (p : Profile)
    (j : List Message × StateM) (r : List Message × rpq.Queue Message) :
    Packet × StateM :=
  let msgs := j.1 ++ r.1
  let pn := rpq.PopN j.2.msgQueue (j.2.maxMsgs - msgs.length)
    (quotaF j.2.members.length)
  ({ typ := typ, remoteID := dst, remoteAddr := p.addr,
     TargetID := target, TargetAddr := targetAddr,
     Msgs := msgs ++ pn.1 },
    { j.2 with memoQueue := r.2, msgQueue := pn.2 })

/-- makePacket: assemble an outgoing packet.  `none` models the Go nil
dereference `s.members[dst].contacted` when `dst` is not a member, or
the rpq.Pop panic (which clause fired is visible in the shape of the
definition).  The quota closure is evaluated at the current member
count, as the Go closure does. -/
def makePacket (quotaF : Nat → Int) (s : StateM) (typ : PacketType)
    (dst target : NodeId) (targetAddr : Nat) : Option (Packet × StateM) :=
  match lookupA s.members dst with
  | none => none
  | some p =>
    match popMemoStep (introStep s dst p).2.memoQueue
        (quotaF (introStep s dst p).2.members.length) with
    | none => none
    | some r =>
      some (assemblePacket quotaF typ dst target targetAddr p
        (introStep s dst p) r)

/-- makePing. -/
def makePing (quotaF : Nat → Int) (s : StateM) (dst : NodeId) :
    Option (Packet × StateM) :=
  makePacket quotaF s .ping dst "" 0

/-- makeAck. -/
def makeAck (quotaF : Nat → Int) (s : StateM) (dst : NodeId) :
    Option (Packet × StateM) :=
  makePacket quotaF s .ack dst "" 0

/-- makePingReq. -/
def makePingReq (quotaF : Nat → Int) (s : StateM) (dst target : NodeId)
    (targetAddr : Nat) : Option (Packet × StateM) :=
  makePacket quotaF s .pingReq dst target targetAddr

/-- makeReqAck. -/
def makeReqAck (quotaF : Nat → Int) (s : StateM) (dst target : NodeId)
    (targetAddr : Nat) : Option (Packet × StateM) :=
  makePacket quotaF s .ack dst target targetAddr

/-- makeMessagePing: a single-message ping to the message's subject. -/
def makeMessagePing (m : Message) : Packet :=
  { typ := .ping, remoteID := m.NodeID, remoteAddr := m.Addr,
    TargetID := "", TargetAddr := 0, Msgs := [m] }

/-- The incremented suspicion counter of `x`: `s.suspects[x]++`. -/
def suspectCount (s : StateM) (x : NodeId) : Nat :=
  (lookupA s.suspects x).getD 0 + 1

/-- The state after `s.suspects[x]++`. -/
def bumpSuspect (s : StateM) (x : NodeId) : StateM :=
  { s with suspects := insertA s.suspects x (suspectCount s x) }

/-- failedMessage for subject `x` with profile `p` (the Incarnation
field is left at its zero value as in the Go literal). -/
def failedMsgFor (x : NodeId) (p : Profile) : Message :=
  { typ := .failed, NodeID := x, Addr := p.addr, Incarnation := 0,
    MemoID := "", Body := [] }

/-- The last-rites part of a suspicion timeout: enqueue the Failed
message into the membership RPQ. -/
def lastRites (s : StateM) (x : NodeId) (p : Profile) : StateM :=
  { s with msgQueue := rpq.Upsert s.msgQueue x (failedMsgFor x p) }

/-- One iteration of tick's suspects loop for key `x`: increment the
counter, and on reaching the suspicion timeout enqueue a Failed
message, emit a last-rites ping, and dismiss the id.  `none` models the
nil dereference in failedMessage when `x` is not a member. -/
def tickSuspectStep (suspTOF : Nat → Int) (s : StateM) (ps : List Packet)
    (us : List Update) (x : NodeId) :
    Option (StateM × List Packet × List Update) :=
  if (suspectCount s x : Int) ≥ suspTOF (bumpSuspect s x).members.length then
    match lookupA (bumpSuspect s x).members x with
    | none => none
    | some p =>
      some ((remove (lastRites (bumpSuspect s x) x p) x).1,
        ps ++ [makeMessagePing (failedMsgFor x p)],
        us ++ (remove (lastRites (bumpSuspect s x) x p) x).2)
  else some (bumpSuspect s x, ps, us)

/-- The suspects loop of tick, iterating over a snapshot of the keys. -/
def tickSuspectsAux (suspTOF : Nat → Int) (s : StateM) (ps : List Packet)
    (us : List Update) :
    List NodeId → Option (StateM × List Packet × List Update)
  | [] => some (s, ps, us)
  | x :: xs =>
    match tickSuspectStep suspTOF s ps us x with
    | none => none
    | some (s1, ps1, us1) => tickSuspectsAux suspTOF s1 ps1 us1 xs

/-- Phase 1 of tick: advance every suspicion counter and dismiss the
timed-out suspects. -/
def tickSuspects (suspTOF : Nat → Int) (s : StateM) :
    Option (StateM × List Packet × List Update) :=
  tickSuspectsAux suspTOF s [] [] (keys s.suspects)

/-- Phase 2 of tick: if the previous ping target got no ack and is
still a member, suspect it (without resetting an existing counter),
enqueue a Suspected message and emit a single-message ping to it. -/
def suspectMsgFor (x : NodeId) (p : Profile) : Message :=
  { typ := .suspected, NodeID := x, Addr := p.addr,
    Incarnation := p.incarnation, MemoID := "", Body := [] }

/-- Insert the ping target into suspects with counter 0 unless it is
already a suspect (an existing counter is not reset). -/
def ensureSuspect (s : StateM) : StateM :=
  if isSuspect s s.pingTarget then s
  else { s with suspects := insertA s.suspects s.pingTarget 0 }

def tickPingCheck (s : StateM) : StateM × List Packet :=
  if s.gotAck then (s, [])
  else
    match lookupA s.members s.pingTarget with
    | none => (s, [])
    | some p =>
      ({ ensureSuspect s with
          msgQueue := rpq.Upsert (ensureSuspect s).msgQueue s.pingTarget
            (suspectMsgFor s.pingTarget p) },
        [makeMessagePing (suspectMsgFor s.pingTarget p)])

/-- tick: begin a new protocol period.  `cs` feeds the shuffle inside
`order.Next`. -/
def tickAdvance (s : StateM) (cs : List Nat) : StateM :=
  { s with
    gotAck := false
    pingReqs := []
    pingTarget := (rrr.Next s.order cs).1
    order := (rrr.Next s.order cs).2 }

def tick (quotaF suspTOF : Nat → Int) (cs : List Nat) (s : StateM) :
    Option (StateM × List Packet × List Update) :=
  match tickSuspects suspTOF s with
  | none => none
  | some (s1, ps1, us) =>
    if (tickAdvance (tickPingCheck s1).1 cs).pingTarget = "" then
      some (tickAdvance (tickPingCheck s1).1 cs, ps1 ++ (tickPingCheck s1).2, us)
    else
      match makePing quotaF (tickAdvance (tickPingCheck s1).1 cs)
          (tickAdvance (tickPingCheck s1).1 cs).pingTarget with
      | none => none
      | some r =>
        some (r.2, (ps1 ++ (tickPingCheck s1).2) ++ [r.1], us)

/-- The emission loop of timeout, one makePingReq per sampled id; the
target's address is re-read from the member table on each iteration as
in the Go loop body. -/
def timeoutAux (quotaF : Nat → Int) (target : NodeId) (s : StateM)
    (ps : List Packet) : List NodeId → Option (StateM × List Packet)
  | [] => some (s, ps)
  | dst :: rest =>
    match lookupA s.members target with
    | none => none
    | some p =>
      match makePingReq quotaF s dst target p.addr with
      | none => none
      | some (pk, s1) => timeoutAux quotaF target s1 (ps ++ [pk]) rest

/-- timeout: after the ping timer fires, issue indirect probes unless
an ack arrived or the target is gone. -/
def timeout (quotaF : Nat → Int) (cs : List Nat) (s : StateM) :
    Option (StateM × List Packet) :=
  if s.gotAck || ¬ isMember s s.pingTarget then some (s, [])
  else
    timeoutAux quotaF s.pingTarget s []
      (rrr.IndependentSample s.order s.nPingReqs s.pingTarget cs)

/-- The forwarded-ack loop of processPacketType's ack case, iterating
over a snapshot of pingReqs and deleting the served entries. -/
def ackLoop (quotaF : Nat → Int) (p : Packet) (s : StateM) (ps : List Packet) :
    List (NodeId × NodeId) → Option (StateM × List Packet)
  | [] => some (s, ps)
  | (src, tgt) :: rest =>
    if tgt = p.remoteID then
      match makeReqAck quotaF s src p.remoteID p.remoteAddr with
      | none => none
      | some (pk, s1) =>
        ackLoop quotaF p { s1 with pingReqs := eraseA s1.pingReqs src }
          (ps ++ [pk]) rest
    else ackLoop quotaF p s ps rest

/-- The gotAck update of the ack case: an ack from or echoing the
current ping target records the ack. -/
def ackGot (s : StateM) (p : Packet) : StateM :=
  if p.remoteID = s.pingTarget ∨ p.TargetID = s.pingTarget then
    { s with gotAck := true }
  else s

def processPacketType (quotaF : Nat → Int) (s : StateM) (p : Packet) :
    Option (StateM × List Packet) :=
  match p.typ with
  | .ping => (makeAck quotaF s p.remoteID).map (fun r => (r.2, [r.1]))
  | .pingReq =>
    (makePing quotaF
      { s with pingReqs := insertA s.pingReqs p.remoteID p.TargetID }
      p.TargetID).map (fun r => (r.2, [r.1]))
  | .ack => ackLoop quotaF p (ackGot s p) [] (ackGot s p).pingReqs

/-- The address-defaulting of receive: a message with the zero address
takes the packet's source address. -/
def patchAddr (p : Packet) (m : Message) : Message :=
  if m.Addr = 0 then { m with Addr := p.remoteAddr } else m

/-- The message loop of receive: default empty addresses to the
packet's source address, then process each message; stop (continue =
false) when a message declares the local node failed. -/
def receiveMsgsAux (p : Packet) (s : StateM) (us : List Update)
    (ms : List Memo) (cs : List Nat) :
    List Message → StateM × List Update × List Memo × Bool
  | [] => (s, us, ms, true)
  | m :: rest =>
    if (processMsg s (patchAddr p m) (cs.headD 0)).2.2.2 then
      receiveMsgsAux p (processMsg s (patchAddr p m) (cs.headD 0)).1
        (us ++ (processMsg s (patchAddr p m) (cs.headD 0)).2.1)
        (ms ++ (processMsg s (patchAddr p m) (cs.headD 0)).2.2.1) cs.tail rest
    else ((processMsg s (patchAddr p m) (cs.headD 0)).1,
      us ++ (processMsg s (patchAddr p m) (cs.headD 0)).2.1,
      ms ++ (processMsg s (patchAddr p m) (cs.headD 0)).2.2.1, false)

/-- receive: drop packets from dismissed senders, process the messages,
then answer the packet type.  The Bool reports whether the engine can
continue participating. -/
def receive (quotaF : Nat → Int) (cs : List Nat) (s : StateM) (p : Packet) :
    Option (StateM × List Packet × List Update × List Memo × Bool) :=
  if p.remoteID ∈ s.removed then some (s, [], [], [], true)
  else if (receiveMsgsAux p s [] [] cs p.Msgs).2.2.2 then
    match processPacketType quotaF (receiveMsgsAux p s [] [] cs p.Msgs).1 p with
    | none => none
    | some r =>
      some (r.1, r.2, (receiveMsgsAux p s [] [] cs p.Msgs).2.1,
        (receiveMsgsAux p s [] [] cs p.Msgs).2.2.1, true)
  else
    some ((receiveMsgsAux p s [] [] cs p.Msgs).1, [],
      (receiveMsgsAux p s [] [] cs p.Msgs).2.1,
      (receiveMsgsAux p s [] [] cs p.Msgs).2.2.1, false)

/-- addMemo, with the freshly minted random memo id supplied
explicitly. -/
def addMemo (s : StateM) (memoID : NodeId) (b : List Nat) : StateM :=
  { s with
    memoQueue := rpq.Upsert s.memoQueue memoID
      { typ := .memo, NodeID := s.id, Addr := 0, Incarnation := 0,
        MemoID := memoID, Body := b },
    seenMemos := insertS s.seenMemos memoID }

/-- Node.PostMemo: reject bodies longer than 500 bytes without touching
the engine state, otherwise mint a memo. -/
def PostMemo (s : StateM) (memoID : NodeId) (b : List Nat) :
    Option String × StateM :=
  if b.length > 500 then (some "body too long", s)
  else (none, addMemo s memoID b)

end engine

/-! Concrete fixtures used by witnesses and counterexamples. -/

/-- A queue state reached through the public rpq API with a constant
quota of 10: Upsert x, Upsert y, Pop, Pop, Pop, Upsert z.  Its heap
array is [z(count 0), y(count 2), x(count 1)]. -/
def qc : rpq.Queue Nat :=
  let q0 : rpq.Queue Nat := rpq.new
  let q1 := rpq.Upsert q0 "x" 1
  let q2 := rpq.Upsert q1 "y" 2
  let q3 := ((rpq.Pop q2 10).map (·.2)).getD q2
  let q4 := ((rpq.Pop q3 10).map (·.2)).getD q3
  let q5 := ((rpq.Pop q4 10).map (·.2)).getD q4
  rpq.Upsert q5 "z" 3

/-- A small engine state: node "A" knows one member "B" (address 7),
which is the current ping target and has not acked. -/
def sB : engine.StateM :=
  { id := "A", incarnation := 0,
    members := [("B", ⟨0, true, 7⟩)],
    suspects := [], removed := [], order := ⟨["B"], 1⟩,
    msgQueue := rpq.new, memoQueue := rpq.new, seenMemos := [],
    pingTarget := "B", gotAck := false, pingReqs := [],
    nPingReqs := 2, maxMsgs := 6 }

namespace dissem

/-- The `logn3` closure of newStateMachine: int(math.Ceil(3 *
math.Log(float64(len(s.members)+1)))), idealizing float64 by real
arithmetic; the argument is the member count. -/
noncomputable def logn3 (memberCount : Nat) : Int :=
  ⌈(3 : ℝ) * Real.log ((memberCount : ℝ) + 1)⌉

/-- suspicionTimeout: int(3*math.Log(float64(len(s.members)))) + 1.
For a positive member count the Go truncation equals the floor; the
(unreachable) zero case of the Go code hits math.Log(0) = -Inf. -/
noncomputable def suspicionTimeout (memberCount : Nat) : Int :=
  ⌊(3 : ℝ) * Real.log (memberCount : ℝ)⌋ + 1

/-- The dissemination factor exactly as the specification defines it:
D(n) = ⌈2 · ln n⌉. -/
noncomputable def Dspec (n : Nat) : Int :=
  ⌈(2 : ℝ) * Real.log (n : ℝ)⌉

end dissem

namespace engine

/-- The member-table invariants exactly as the specification states
them: no id is both a member and dismissed; every suspect is a member;
the round-robin order holds exactly the member ids (each once, the
member keys being unique); and the local id is in none of members,
suspects, or dismissed. -/
def MemberInv (s : StateM) : Prop :=
  (∀ x, x ∈ keys s.members → x ∉ s.removed) ∧
  (∀ x, x ∈ keys s.suspects → x ∈ keys s.members) ∧
  s.order.a.Perm (keys s.members) ∧
  s.id ∉ keys s.members ∧ s.id ∉ keys s.suspects ∧ s.id ∉ s.removed

/-- The inductive strengthening of MemberInv: map keys are unique and
the order cursor stays in range. -/
def Inv (s : StateM) : Prop :=
  (keys s.members).Nodup ∧
  (keys s.suspects).Nodup ∧
  s.order.next ≤ s.order.a.length ∧
  MemberInv s

/-- The states the engine can reach: a fresh stateMachine followed by
any sequence of completed (panic-free) engine operations, for any
quota/suspicion-timeout configuration, random choices, and inputs. -/
inductive Reachable : StateM → Prop where
  | init (i : NodeId) : Reachable (newStateMachine i)
  | tickStep (quotaF suspTOF : Nat → Int) (cs : List Nat) (s : StateM)
      (r : StateM × List Packet × List Update) : Reachable s →
      tick quotaF suspTOF cs s = some r → Reachable r.1
  | timeoutStep (quotaF : Nat → Int) (cs : List Nat) (s : StateM)
      (r : StateM × List Packet) : Reachable s →
      timeout quotaF cs s = some r → Reachable r.1
  | receiveStep (quotaF : Nat → Int) (cs : List Nat) (s : StateM) (p : Packet)
      (r : StateM × List Packet × List Update × List Memo × Bool) :
      Reachable s → receive quotaF cs s p = some r → Reachable r.1
  | postMemoStep (s : StateM) (memoID : NodeId) (b : List Nat) :
      Reachable s → Reachable (PostMemo s memoID b).2

end engine

/-! Basic lemmas about `lswap` and the heap algorithms. -/

theorem cons_set_perm {α : Type} :
    ∀ (xs : List α) (k : Nat) (b x : α), xs.get? k = some b →
      (b :: xs.set k x).Perm (x :: xs) := by
  intro xs
  induction xs with
  | nil => intro k b x h; simp at h
  | cons y ys ih =>
    intro k b x h
    cases k with
    | zero =>
      simp only [List.get?_cons_zero, Option.some.injEq] at h
      simp only [List.set_cons_zero]
      rw [← h]
      exact List.Perm.swap x y ys
    | succ m =>
      simp only [List.get?_cons_succ] at h
      simp only [List.set_cons_succ]
      exact ((List.Perm.swap y b _).trans ((ih m b x h).cons y)).trans
        (List.Perm.swap x y ys)

theorem set_set_perm {α : Type} :
    ∀ (l : List α) (i j : Nat) (a b : α), l.get? i = some a →
      l.get? j = some b → ((l.set i b).set j a).Perm l := by
  intro l
  induction l with
  | nil => intro i j a b hi; simp at hi
  | cons x xs ih =>
    intro i j a b hi hj
    cases i with
    | zero =>
      simp only [List.get?_cons_zero, Option.some.injEq] at hi
      cases j with
      | zero =>
        simp only [List.get?_cons_zero, Option.some.injEq] at hj
        simp only [List.set_cons_zero]
        rw [← hi]
      | succ m =>
        simp only [List.get?_cons_succ] at hj
        simp only [List.set_cons_zero, List.set_cons_succ]
        rw [← hi]
        exact cons_set_perm xs m b x hj
    | succ k =>
      simp only [List.get?_cons_succ] at hi
      cases j with
      | zero =>
        simp only [List.get?_cons_zero, Option.some.injEq] at hj
        simp only [List.set_cons_succ, List.set_cons_zero]
        rw [← hj]
        exact cons_set_perm xs k a x hi
      | succ m =>
        simp only [List.get?_cons_succ] at hj
        simp only [List.set_cons_succ]
        exact List.Perm.cons x (ih k m a b hi hj)

theorem lswap_perm {α : Type} (l : List α) (i j : Nat) : (lswap l i j).Perm l := by
  unfold lswap
  split
  · next a b hi hj => exact set_set_perm l i j a b hi hj
  · exact List.Perm.refl l

theorem lswap_length {α : Type} (l : List α) (i j : Nat) :
    (lswap l i j).length = l.length :=
  (lswap_perm l i j).length_eq

theorem lswap_get_of_ne {α : Type} (l : List α) (i j k : Nat) (hik : k ≠ i)
    (hjk : k ≠ j) : (lswap l i j).get? k = l.get? k := by
  unfold lswap
  split
  · next a b hi hj =>
    rw [List.get?_set_ne _ _ (Ne.symm hjk), List.get?_set_ne _ _ (Ne.symm hik)]
  · rfl

theorem get_isSome_of_lt {α : Type} (l : List α) (i : Nat) (h : i < l.length) :
    ∃ a, l.get? i = some a := by
  cases hx : l.get? i with
  | none => rw [List.get?_eq_none] at hx; omega
  | some a => exact ⟨a, rfl⟩

theorem lswap_get_snd {α : Type} (l : List α) (i j : Nat) (hi : i < l.length)
    (hj : j < l.length) : (lswap l i j).get? j = l.get? i := by
  obtain ⟨a, ha⟩ := get_isSome_of_lt l i hi
  obtain ⟨b, hb⟩ := get_isSome_of_lt l j hj
  unfold lswap
  simp only [ha, hb]
  obtain ⟨c, hc⟩ := get_isSome_of_lt (l.set i b) j (by simpa using hj)
  rw [List.get?_set_eq, hc]
  rfl

namespace rpq

theorem upFuel_perm {V : Type} :
    ∀ (fuel : Nat) (l : List (Item V)) (j : Nat), (upFuel l fuel j).Perm l := by
  intro fuel
  induction fuel with
  | zero => intro l j; exact List.Perm.refl l
  | succ fuel ih =>
    intro l j
    rw [upFuel]
    split
    · exact List.Perm.refl l
    · split
      · exact (ih _ _).trans (lswap_perm l _ j)
      · exact List.Perm.refl l

theorem up_perm {V : Type} (l : List (Item V)) (j : Nat) : (up l j).Perm l :=
  upFuel_perm j l j

theorem childIdx_lt {V : Type} (l : List (Item V)) (i n : Nat)
    (h : 2 * i + 1 < n) : i < childIdx l i n ∧ childIdx l i n < n := by
  unfold childIdx
  split <;> (try split) <;> omega

theorem downFuel_perm {V : Type} :
    ∀ (fuel : Nat) (l : List (Item V)) (i n : Nat),
      (downFuel l fuel i n).1.Perm l := by
  intro fuel
  induction fuel with
  | zero => intro l i n; exact List.Perm.refl l
  | succ fuel ih =>
    intro l i n
    rw [downFuel]
    split
    · exact List.Perm.refl l
    · split
      · exact (ih _ _ _).trans (lswap_perm l i _)
      · exact List.Perm.refl l

theorem down_perm {V : Type} (l : List (Item V)) (i n : Nat) :
    (down l i n).1.Perm l := downFuel_perm n l i n

theorem heapFix_perm {V : Type} (l : List (Item V)) (i : Nat) :
    (heapFix l i).Perm l := by
  simp only [heapFix]
  split
  · exact down_perm l i l.length
  · exact (up_perm _ i).trans (down_perm l i l.length)

theorem heapPush_perm {V : Type} (l : List (Item V)) (x : Item V) :
    (heapPush l x).Perm (x :: l) :=
  (up_perm _ _).trans (List.perm_append_singleton x l)

theorem upFuel_get_gt {V : Type} :
    ∀ (fuel : Nat) (l : List (Item V)) (j k : Nat), j < k →
      (upFuel l fuel j).get? k = l.get? k := by
  intro fuel
  induction fuel with
  | zero => intro l j k _; rfl
  | succ fuel ih =>
    intro l j k hk
    rw [upFuel]
    split
    · rfl
    · next hj =>
      split
      · rw [ih _ _ k (by omega)]
        exact lswap_get_of_ne l _ j k (by omega) (by omega)
      · rfl

theorem downFuel_get_ge {V : Type} :
    ∀ (fuel : Nat) (l : List (Item V)) (i n k : Nat), n ≤ k →
      ((downFuel l fuel i n).1).get? k = l.get? k := by
  intro fuel
  induction fuel with
  | zero => intro l i n k _; rfl
  | succ fuel ih =>
    intro l i n k hk
    rw [downFuel]
    split
    · rfl
    · next h =>
      split
      · rw [ih _ _ _ k hk]
        have hj := childIdx_lt l i n (by omega)
        exact lswap_get_of_ne l i _ k (by omega) (by omega)
      · rfl

theorem heapPop_cons {V : Type} (x : Item V) (xs : List (Item V)) :
    ∃ l2, heapPop (x :: xs) = some (x, l2) ∧ l2.Perm xs := by
  have hlen : (x :: xs).length = xs.length + 1 := by simp
  have h1 : (lswap (x :: xs) 0 xs.length).get? xs.length = some x := by
    rw [lswap_get_snd (x :: xs) 0 xs.length (by simp) (by simp)]
    rfl
  have h1len : (lswap (x :: xs) 0 xs.length).length = xs.length + 1 := by
    rw [lswap_length, hlen]
  set l1 := lswap (x :: xs) 0 xs.length with hl1
  set l2 := (down l1 0 xs.length).1 with hl2
  have h2 : l2.get? xs.length = some x := by
    rw [hl2]
    rw [down, downFuel_get_ge xs.length l1 0 xs.length xs.length le_rfl]
    exact h1
  have h2perm : l2.Perm (x :: xs) := (down_perm l1 0 xs.length).trans (lswap_perm _ 0 _)
  have h2len : l2.length = xs.length + 1 := by
    rw [h2perm.length_eq, hlen]
  have hlast : l2.getLast? = some x := by
    rw [List.getLast?_eq_get?, h2len]
    simpa using h2
  have hne : l2 ≠ [] := by
    intro hc
    rw [hc] at h2len
    simp at h2len
  refine ⟨l2.dropLast, ?_, ?_⟩
  · show heapPop (x :: xs) = some (x, l2.dropLast)
    rw [heapPop]
    simp only [hlen, Nat.add_sub_cancel]
    rw [← hl1, ← hl2, hlast]
  · have hgl : l2.getLast hne = x :=
      Option.some.inj ((List.getLast?_eq_getLast l2 hne).symm.trans hlast)
    have hsplit : l2.dropLast ++ [x] = l2 := by
      rw [← hgl]
      exact List.dropLast_append_getLast hne
    have h4 : (l2.dropLast ++ [x]).Perm (x :: xs) := by rw [hsplit]; exact h2perm
    exact ((List.perm_append_singleton x _).symm.trans h4).cons_inv

theorem Pop_none_iff {V : Type} (q : Queue V) (quota : Int) :
    Pop q quota = none ↔ q.items = [] := by
  cases h : q.items with
  | nil => simp [Pop, h]
  | cons root rest =>
    simp only [Pop, h]
    constructor
    · intro hc
      split at hc
      · obtain ⟨l2, hp, _⟩ := heapPop_cons { root with count := root.count + 1 } rest
        rw [hp] at hc
        simp at hc
      · simp at hc
    · intro hc
      simp at hc

theorem Pop_evict_spec {V : Type} (q : Queue V) (quota : Int) (root : Item V)
    (rest : List (Item V)) (hq : q.items = root :: rest)
    (h : quota ≤ (root.count + 1 : Int)) :
    ∃ q2, Pop q quota = some (root.value, q2) ∧ q2.items.Perm rest := by
  obtain ⟨l2, hp, hperm⟩ := heapPop_cons { root with count := root.count + 1 } rest
  refine ⟨⟨l2⟩, ?_, hperm⟩
  simp only [Pop, hq]
  rw [if_pos (by omega), hp]

theorem Pop_keep_spec {V : Type} (q : Queue V) (quota : Int) (root : Item V)
    (rest : List (Item V)) (hq : q.items = root :: rest)
    (h : (root.count + 1 : Int) < quota) :
    ∃ q2, Pop q quota = some (root.value, q2) ∧
      q2.items.Perm ({ root with count := root.count + 1 } :: rest) := by
  refine ⟨⟨heapFix ({ root with count := root.count + 1 } :: rest) 0⟩, ?_, ?_⟩
  · simp only [Pop, hq]
    rw [if_neg (by omega)]
  · exact heapFix_perm _ 0

theorem PopN_values {V : Type} (q : Queue V) (n : Nat) (quota : Int) :
    (PopN q n quota).1 =
      (q.items.take (min n q.items.length)).map Item.value := rfl

theorem PopN_count {V : Type} (q : Queue V) (n : Nat) (quota : Int) :
    (PopN q n quota).1.length = min n (Len q) := by
  rw [PopN_values]
  simp only [List.length_map, List.length_take, Len]
  omega

end rpq

/-! The claims. -/

/-- Claim C1: the supersedes relation on messages matches the spec's
table: false when `a` is null; true when `b` is null and `a` is not;
for two non-null messages about different ids always false; false
whenever `b` is Failed; true when `a` is Failed and `b` is not; and for
two non-Failed messages about the same id, true iff `a`'s incarnation
is greater, or the incarnations are equal and `a` is Suspected while
`b` is Alive. -/
theorem claim_C1_supersedes_table (a b : Option fsm.Msg) :
    fsm.supersedes a b = fsm.supersedesSpec a b := by
  cases a with
  | none => rfl
  | some a =>
    cases b with
    | none => rfl
    | some b =>
      simp only [fsm.supersedes, fsm.supersedesSpec]
      by_cases hid : a.id ≠ b.id
      · simp [hid]
      · by_cases hb : b.typ = fsm.Status.failed
        · simp [hid, hb]
        · by_cases ha : a.typ = fsm.Status.failed
          · simp [hid, hb, ha]
          · by_cases hinc : a.incarnation = b.incarnation
            · simp [hid, hb, ha, hinc]
            · simp [hid, hb, ha, hinc]

theorem log_two_bounds : (0.6931471803 : ℝ) < Real.log 2 ∧
    Real.log 2 < 0.6931471808 :=
  ⟨Real.log_two_gt_d9, Real.log_two_lt_d9⟩

theorem logn3_one : dissem.logn3 1 = 3 := by
  unfold dissem.logn3
  have h2 : ((1 : Nat) : ℝ) + 1 = 2 := by norm_num
  rw [h2, Int.ceil_eq_iff]
  have := log_two_bounds
  constructor
  · push_cast
    nlinarith [this.1]
  · push_cast
    nlinarith [this.2]

theorem suspicionTimeout_one : dissem.suspicionTimeout 1 = 1 := by
  unfold dissem.suspicionTimeout
  norm_num

theorem suspicionTimeout_two : dissem.suspicionTimeout 2 = 3 := by
  unfold dissem.suspicionTimeout
  have h2 : ((2 : Nat) : ℝ) = 2 := by norm_num
  rw [h2]
  have := log_two_bounds
  have hf : ⌊(3 : ℝ) * Real.log 2⌋ = 2 := by
    rw [Int.floor_eq_iff]
    constructor
    · push_cast
      nlinarith [this.1]
    · push_cast
      nlinarith [this.2]
  omega

theorem Dspec_two : dissem.Dspec 2 = 2 := by
  unfold dissem.Dspec
  have h2 : ((2 : Nat) : ℝ) = 2 := by norm_num
  rw [h2, Int.ceil_eq_iff]
  have := log_two_bounds
  constructor
  · push_cast
    nlinarith [this.1]
  · push_cast
    nlinarith [this.2]

/-- Claim C2 counterexample: in a state with exactly one member
(n = |members| + 1 = 2), the quota the engine hands both RPQs is
logn3 = ⌈3·ln 2⌉ = 3 while the spec's D(2) = ⌈2·ln 2⌉ = 2, and the
suspicion timeout is ⌊3·ln 1⌋ + 1 = 1, not D(2); so quota and timeout
are not both D(n). -/
theorem claim_C2_counterexample :
    ¬ (dissem.logn3 1 = dissem.Dspec 2 ∧
        dissem.suspicionTimeout 1 = dissem.Dspec 2) := by
  rw [logn3_one, suspicionTimeout_one, Dspec_two]
  omega

/-- Claim C2 amended: with n = |members| + 1, the quota applied to both
RPQs is logn3(|members|) = ⌈3·ln n⌉ (λ = 3, not 2), and the suspicion
timeout is ⌊3·ln |members|⌋ + 1; the two formulas differ from D(n) =
⌈2·ln n⌉ and from each other, e.g. at one and two members. -/
theorem claim_C2_amended :
    dissem.logn3 1 = 3 ∧ dissem.suspicionTimeout 1 = 1 ∧
    dissem.suspicionTimeout 2 = 3 ∧ dissem.Dspec 2 = 2 ∧
    dissem.logn3 1 ≠ dissem.Dspec 2 ∧
    dissem.suspicionTimeout 1 ≠ dissem.logn3 1 := by
  rw [logn3_one, suspicionTimeout_one, suspicionTimeout_two, Dspec_two]
  omega

/-- Claim C9: PostMemo errors exactly when the body exceeds 500 bytes;
in the error case the whole engine state is untouched; otherwise no
error is reported and the memo is enqueued into the memo RPQ under the
minted id, which is also recorded as seen, all other state being
unchanged. -/
theorem claim_C9_postmemo_limit (s : engine.StateM) (memoID : NodeId)
    (b : List Nat) :
    ((engine.PostMemo s memoID b).1.isSome = decide (500 < b.length)) ∧
    ((engine.PostMemo s memoID b).2 =
      if 500 < b.length then s else engine.addMemo s memoID b) ∧
    ((engine.addMemo s memoID b).memoQueue =
      rpq.Upsert s.memoQueue memoID
        { typ := .memo, NodeID := s.id, Addr := 0, Incarnation := 0,
          MemoID := memoID, Body := b }) ∧
    ((engine.addMemo s memoID b).seenMemos =
      engine.insertS s.seenMemos memoID) ∧
    ((engine.addMemo s memoID b).members = s.members) ∧
    ((engine.addMemo s memoID b).msgQueue = s.msgQueue) ∧
    ((engine.addMemo s memoID b).suspects = s.suspects) ∧
    ((engine.addMemo s memoID b).removed = s.removed) := by
  unfold engine.PostMemo engine.addMemo
  by_cases h : 500 < b.length
  · simp [h]
  · simp [h]

/-- Claim C7: a packet whose sender is in the dismissed set is dropped:
receive returns the state unchanged (every field), no outgoing packets,
no events, and the can-continue flag. -/
theorem claim_C7_dismissed_sender_dropped (quotaF : Nat → Int)
    (cs : List Nat) (s : engine.StateM) (p : engine.Packet)
    (h : p.remoteID ∈ s.removed) :
    engine.receive quotaF cs s p = some (s, [], [], [], true) := by
  unfold engine.receive
  rw [if_pos h]

theorem claim_C7_witness :
    engine.receive (fun _ => 3) [] { sB with removed := ["C"] }
        { typ := .ping, remoteID := "C", remoteAddr := 9, TargetID := "",
          TargetAddr := 0,
          Msgs := [{ typ := .alive, NodeID := "C", Addr := 0,
                     Incarnation := 5, MemoID := "", Body := [] }] } =
      some ({ sB with removed := ["C"] }, [], [], [], true) :=
  claim_C7_dismissed_sender_dropped (fun _ => 3) [] _ _ (by decide)

/-- Claim C4: when processMsg handles a message about the local node's
own id: a Suspected message at the current incarnation increments the
incarnation by exactly 1 and enqueues an Alive refutation (with the new
incarnation) into the membership RPQ; at any other incarnation the
incarnation is unchanged; and the cannot-continue indication is
returned exactly for a Failed message. -/
theorem claim_C4_self_message (s : engine.StateM) (m : engine.Message)
    (c : Nat) (h : m.NodeID = s.id) :
    (m.typ = .suspected → m.Incarnation = s.incarnation →
      (engine.processMsg s m c).1.incarnation = s.incarnation + 1 ∧
      (engine.processMsg s m c).1.msgQueue =
        rpq.Upsert s.msgQueue s.id
          { typ := .alive, NodeID := s.id, Addr := 0,
            Incarnation := s.incarnation + 1, MemoID := "", Body := [] }) ∧
    (m.Incarnation ≠ s.incarnation →
      (engine.processMsg s m c).1.incarnation = s.incarnation) ∧
    ((engine.processMsg s m c).2.2.2 = false ↔ m.typ = .failed) := by
  unfold engine.processMsg
  rw [if_pos h]
  refine ⟨?_, ?_, ?_⟩
  · intro h1 h2
    rw [if_pos ⟨h1, h2⟩]
    exact ⟨rfl, rfl⟩
  · intro hne
    rw [if_neg (by intro hc; exact hne hc.2)]
  · simp

theorem claim_C4_witness :
    ((engine.processMsg (engine.newStateMachine "A")
        { typ := .suspected, NodeID := "A", Addr := 0, Incarnation := 0,
          MemoID := "", Body := [] } 0).1.incarnation = 0 + 1) ∧
    ((engine.processMsg (engine.newStateMachine "A")
        { typ := .suspected, NodeID := "A", Addr := 0, Incarnation := 0,
          MemoID := "", Body := [] } 0).2.2.2 = false ↔
      engine.MsgType.suspected = engine.MsgType.failed) := by
  have h := claim_C4_self_message (engine.newStateMachine "A")
    { typ := .suspected, NodeID := "A", Addr := 0, Incarnation := 0,
      MemoID := "", Body := [] } 0 rfl
  exact ⟨(h.1 rfl rfl).1, h.2.2⟩

/-- Claim C8 (amended): for a Failed message about an id X other than
the local node's id, with X neither a member nor dismissed, the news
predicate returns true and processing enqueues the message into the
membership RPQ but changes nothing else: members, the dismissed set and
the order are untouched and no join or fail event is emitted. -/
theorem claim_C8_failed_unknown (s : engine.StateM) (m : engine.Message)
    (c : Nat) (h1 : m.typ = .failed) (h2 : ¬ m.NodeID = s.id)
    (h3 : engine.lookupA s.members m.NodeID = none)
    (h4 : m.NodeID ∉ s.removed) :
    engine.isMemberNews s m = true ∧
    engine.processMsg s m c =
      ({ s with msgQueue := rpq.Upsert s.msgQueue m.NodeID m },
        [], [], true) := by
  have hmemo : ¬ m.typ = engine.MsgType.memo := by rw [h1]; intro hc; cases hc
  have hnews : engine.isMemberNews s m = true := by
    unfold engine.isMemberNews
    rw [if_neg hmemo, h3]
    simpa using h4
  refine ⟨hnews, ?_⟩
  unfold engine.processMsg
  rw [if_neg h2, if_neg hmemo, if_pos hnews]
  unfold engine.updateStatus
  rw [if_pos h1]
  unfold engine.remove
  rw [h3]

theorem claim_C8_witness :
    engine.isMemberNews sB
        { typ := .failed, NodeID := "D", Addr := 3, Incarnation := 0,
          MemoID := "", Body := [] } = true ∧
    engine.processMsg sB
        { typ := .failed, NodeID := "D", Addr := 3, Incarnation := 0,
          MemoID := "", Body := [] } 0 =
      ({ sB with
          msgQueue := rpq.Upsert sB.msgQueue "D"
            { typ := .failed, NodeID := "D", Addr := 3, Incarnation := 0,
              MemoID := "", Body := [] } }, [], [], true) :=
  claim_C8_failed_unknown sB _ 0 rfl (by decide) (by decide) (by decide)

/-- Claim C8 counterexample: the claim as frozen quantifies over every
id X neither in members nor dismissed, which includes the local node's
own id.  For a Failed message about the local id the news predicate is
still true, but processing does not enqueue the message — it reports
the engine terminal instead — so the claimed enqueue fails at X = own
id. -/
theorem claim_C8_counterexample :
    engine.isMemberNews (engine.newStateMachine "A")
        { typ := .failed, NodeID := "A", Addr := 0, Incarnation := 0,
          MemoID := "", Body := [] } = true ∧
    ((engine.newStateMachine "A").members = [] ∧
      (engine.newStateMachine "A").removed = []) ∧
    ¬ (engine.processMsg (engine.newStateMachine "A")
        { typ := .failed, NodeID := "A", Addr := 0, Incarnation := 0,
          MemoID := "", Body := [] } 0 =
      ({ engine.newStateMachine "A" with
          msgQueue := rpq.Upsert (engine.newStateMachine "A").msgQueue "A"
            { typ := .failed, NodeID := "A", Addr := 0, Incarnation := 0,
              MemoID := "", Body := [] } }, [], [], true)) := by
  exact ⟨by decide, ⟨rfl, rfl⟩, by decide⟩

/-- Claim C10: rpq.Pop is partial — it returns a value exactly when the
queue is non-empty, the empty case being the Go panic — and in packet
assembly the memo-queue Pop is guarded by a Len check, so makePacket
can fail only through the member-table lookup of the destination, never
through the Pop panic branch. -/
theorem claim_C10_pop_guard :
    (∀ (V : Type) (q : rpq.Queue V) (quota : Int),
      rpq.Pop q quota = none ↔ q.items = []) ∧
    (∀ (quotaF : Nat → Int) (s : engine.StateM) (typ : engine.PacketType)
      (dst target : NodeId) (ta : Nat),
      engine.makePacket quotaF s typ dst target ta = none ↔
        engine.lookupA s.members dst = none) := by
  constructor
  · intro V q quota
    exact rpq.Pop_none_iff q quota
  · intro quotaF s typ dst target ta
    have hps : ∀ (q : rpq.Queue engine.Message) (quota : Int),
        engine.popMemoStep q quota ≠ none := by
      intro q quota
      unfold engine.popMemoStep
      split
      · next hlen =>
        cases hpop : rpq.Pop q quota with
        | none =>
          rw [rpq.Pop_none_iff] at hpop
          rw [rpq.Len, hpop] at hlen
          simp at hlen
        | some v =>
          simp
      · simp
    unfold engine.makePacket
    split
    · next hm => simp [hm]
    · next p hm =>
      rw [hm]
      constructor
      · intro hc
        exfalso
        split at hc
        · next heq => exact hps _ _ heq
        · next r heq => cases hc
      · intro hc
        cases hc

/-- Claim C6 counterexample: the queue state `qc`, reached through the
public rpq API (Upsert x, Upsert y, Pop, Pop, Pop, Upsert z at constant
quota 10), has heap array counts [0, 2, 1].  PopN 3 returns the three
values in heap-array order, so the pop counts of the returned items in
return order are [0, 2, 1]: not ascending, and the second returned item
(count 2) does not have the minimum count among the items then
remaining (the third, count 1, is smaller). -/
theorem claim_C6_counterexample :
    (rpq.PopN qc 3 10).1 = [3, 2, 1] ∧
    qc.items.map rpq.Item.count = [0, 2, 1] ∧
    ¬ List.Sorted (· ≤ ·) (qc.items.map rpq.Item.count) :=
  ⟨by decide, by decide, by decide⟩

/-- Claim C6 amended: PopN(n) returns min(n, queue-size) items, taken
from the first min(n, size) heap-array positions (hence all from
distinct positions) in heap-array order — an order that need not be
ascending in pop count; and Pop returns the root value, evicting the
root exactly when its incremented count has reached the quota and
otherwise reinserting it with the incremented count, so an item that
has been popped quota times (without an intervening Upsert) is removed
by that pop. -/
theorem claim_C6_amended :
    (∀ (V : Type) (q : rpq.Queue V) (n : Nat) (quota : Int),
      (rpq.PopN q n quota).1 =
        (q.items.take (min n q.items.length)).map rpq.Item.value) ∧
    (∀ (V : Type) (q : rpq.Queue V) (n : Nat) (quota : Int),
      (rpq.PopN q n quota).1.length = min n (rpq.Len q)) ∧
    (∀ (V : Type) (q : rpq.Queue V) (quota : Int) (root : rpq.Item V)
        (rest : List (rpq.Item V)), q.items = root :: rest →
      quota ≤ (root.count + 1 : Int) →
      ∃ q2, rpq.Pop q quota = some (root.value, q2) ∧ q2.items.Perm rest) ∧
    (∀ (V : Type) (q : rpq.Queue V) (quota : Int) (root : rpq.Item V)
        (rest : List (rpq.Item V)), q.items = root :: rest →
      ((root.count + 1 : Int) < quota) →
      ∃ q2, rpq.Pop q quota = some (root.value, q2) ∧
        q2.items.Perm ({ root with count := root.count + 1 } :: rest)) := by
  refine ⟨?_, ?_, ?_, ?_⟩
  · intro V q n quota
    exact rpq.PopN_values q n quota
  · intro V q n quota
    exact rpq.PopN_count q n quota
  · intro V q quota root rest hq h
    exact rpq.Pop_evict_spec q quota root rest hq h
  · intro V q quota root rest hq h
    exact rpq.Pop_keep_spec q quota root rest hq h

theorem claim_C6_amended_witness :
    ((rpq.PopN qc 3 10).1 =
      (qc.items.take (min 3 qc.items.length)).map rpq.Item.value) ∧
    (∃ q2, rpq.Pop qc 1 = some (3, q2) ∧
      q2.items.Perm [⟨"y", 2, 2⟩, ⟨"x", 1, 1⟩]) ∧
    (∃ q2, rpq.Pop qc 10 = some (3, q2) ∧
      q2.items.Perm [⟨"z", 3, 1⟩, ⟨"y", 2, 2⟩, ⟨"x", 1, 1⟩]) :=
  ⟨claim_C6_amended.1 Nat qc 3 10,
    claim_C6_amended.2.2.1 Nat qc 1 ⟨"z", 3, 0⟩ [⟨"y", 2, 2⟩, ⟨"x", 1, 1⟩]
      (by decide) (by decide),
    claim_C6_amended.2.2.2 Nat qc 10 ⟨"z", 3, 0⟩ [⟨"y", 2, 2⟩, ⟨"x", 1, 1⟩]
      (by decide) (by decide)⟩

namespace engine

theorem keys_updateProfile : ∀ (l : List (NodeId × Profile)) (k : NodeId)
    (f : Profile → Profile), keys (updateProfile l k f) = keys l := by
  intro l
  induction l with
  | nil => intro k f; rfl
  | cons p rest ih =>
    intro k f
    unfold updateProfile
    split
    · rfl
    · show p.1 :: keys (updateProfile rest k f) = p.1 :: keys rest
      rw [ih]

theorem updateProfile_length (l : List (NodeId × Profile)) (k : NodeId)
    (f : Profile → Profile) : (updateProfile l k f).length = l.length := by
  have h := congrArg List.length (keys_updateProfile l k f)
  simpa [keys] using h

theorem introStep_spec (s : StateM) (dst : NodeId) (p : Profile) :
    (introStep s dst p).2.suspects = s.suspects ∧
    (introStep s dst p).2.removed = s.removed ∧
    (introStep s dst p).2.order = s.order ∧
    (introStep s dst p).2.pingTarget = s.pingTarget ∧
    (introStep s dst p).2.gotAck = s.gotAck ∧
    (introStep s dst p).2.id = s.id ∧
    (introStep s dst p).2.incarnation = s.incarnation ∧
    keys (introStep s dst p).2.members = keys s.members ∧
    (introStep s dst p).2.pingReqs = s.pingReqs ∧
    (introStep s dst p).2.nPingReqs = s.nPingReqs ∧
    (introStep s dst p).2.maxMsgs = s.maxMsgs ∧
    (introStep s dst p).2.seenMemos = s.seenMemos ∧
    (introStep s dst p).2.members.length = s.members.length := by
  unfold introStep
  split
  · refine ⟨rfl, rfl, rfl, rfl, rfl, rfl, rfl, ?_, rfl, rfl, rfl, rfl, ?_⟩
    · show keys (updateProfile s.members dst
        (fun q => { q with contacted := true })) = keys s.members
      exact keys_updateProfile s.members dst _
    · exact updateProfile_length s.members dst _
  · exact ⟨rfl, rfl, rfl, rfl, rfl, rfl, rfl, rfl, rfl, rfl, rfl, rfl, rfl⟩

/-- Everything makePacket leaves alone: every field except the two
queues and the member profiles' contacted flags; member keys are
preserved. -/
theorem makePacket_frame (quotaF : Nat → Int) (s : StateM)
    (typ : PacketType) (dst target : NodeId) (ta : Nat)
    (pk : Packet) (s2 : StateM)
    (h : makePacket quotaF s typ dst target ta = some (pk, s2)) :
    s2.suspects = s.suspects ∧ s2.removed = s.removed ∧
    s2.order = s.order ∧ s2.pingTarget = s.pingTarget ∧
    s2.gotAck = s.gotAck ∧ s2.id = s.id ∧
    s2.incarnation = s.incarnation ∧ keys s2.members = keys s.members ∧
    s2.pingReqs = s.pingReqs ∧ s2.nPingReqs = s.nPingReqs ∧
    s2.maxMsgs = s.maxMsgs ∧ s2.seenMemos = s.seenMemos := by
  unfold makePacket at h
  split at h
  · cases h
  · next p hm =>
    split at h
    · cases h
    · next r hr =>
      have hs2 : s2 = (assemblePacket quotaF typ dst target ta p
          (introStep s dst p) r).2 := by
        have h1 := Option.some.inj h
        rw [h1]
      obtain ⟨a1, a2, a3, a4, a5, a6, a7, a8, a9, a10, a11, a12, _⟩ :=
        introStep_spec s dst p
      rw [hs2]
      exact ⟨a1, a2, a3, a4, a5, a6, a7, a8, a9, a10, a11, a12⟩

/-- The engine's remove leaves the probe bookkeeping alone. -/
theorem remove_frame (s : StateM) (x : NodeId) :
    (remove s x).1.pingTarget = s.pingTarget ∧
    (remove s x).1.gotAck = s.gotAck ∧
    (remove s x).1.id = s.id ∧
    (remove s x).1.incarnation = s.incarnation ∧
    (remove s x).1.pingReqs = s.pingReqs ∧
    (remove s x).1.nPingReqs = s.nPingReqs ∧
    (remove s x).1.maxMsgs = s.maxMsgs ∧
    (remove s x).1.memoQueue = s.memoQueue ∧
    (remove s x).1.seenMemos = s.seenMemos := by
  unfold remove
  split
  · exact ⟨rfl, rfl, rfl, rfl, rfl, rfl, rfl, rfl, rfl⟩
  · exact ⟨rfl, rfl, rfl, rfl, rfl, rfl, rfl, rfl, rfl⟩

/-- One suspects-loop iteration leaves the probe bookkeeping alone. -/
theorem tickSuspectStep_frame (suspTOF : Nat → Int) (s : StateM)
    (ps : List Packet) (us : List Update) (x : NodeId)
    (s1 : StateM) (ps1 : List Packet) (us1 : List Update)
    (h : tickSuspectStep suspTOF s ps us x = some (s1, ps1, us1)) :
    s1.pingTarget = s.pingTarget ∧ s1.gotAck = s.gotAck ∧
    s1.id = s.id ∧ s1.incarnation = s.incarnation ∧
    s1.nPingReqs = s.nPingReqs ∧ s1.maxMsgs = s.maxMsgs ∧
    s1.pingReqs = s.pingReqs := by
  unfold tickSuspectStep at h
  split at h
  · split at h
    · cases h
    · next p hp =>
      have h1 := Option.some.inj h
      have hs1 : s1 = (remove (lastRites (bumpSuspect s x) x p) x).1 :=
        (congrArg Prod.fst h1).symm
      obtain ⟨b1, b2, b3, b4, b5, b6, b7, _, _⟩ :=
        remove_frame (lastRites (bumpSuspect s x) x p) x
      rw [hs1]
      exact ⟨b1, b2, b3, b4, b6, b7, b5⟩
  · have h1 := Option.some.inj h
    have hs1 : s1 = bumpSuspect s x := (congrArg Prod.fst h1).symm
    rw [hs1]
    exact ⟨rfl, rfl, rfl, rfl, rfl, rfl, rfl⟩

/-- Phase 1 of tick (the suspects loop) leaves the probe bookkeeping
alone. -/
theorem tickSuspectsAux_frame (suspTOF : Nat → Int) :
    ∀ (xs : List NodeId) (s : StateM) (ps : List Packet)
      (us : List Update) (s1 : StateM) (ps1 : List Packet)
      (us1 : List Update),
      tickSuspectsAux suspTOF s ps us xs = some (s1, ps1, us1) →
      s1.pingTarget = s.pingTarget ∧ s1.gotAck = s.gotAck ∧
      s1.id = s.id ∧ s1.incarnation = s.incarnation ∧
      s1.nPingReqs = s.nPingReqs ∧ s1.maxMsgs = s.maxMsgs ∧
      s1.pingReqs = s.pingReqs := by
  intro xs
  induction xs with
  | nil =>
    intro s ps us s1 ps1 us1 h
    unfold tickSuspectsAux at h
    have h1 := Option.some.inj h
    have hs1 : s1 = s := (congrArg Prod.fst h1).symm
    rw [hs1]
    exact ⟨rfl, rfl, rfl, rfl, rfl, rfl, rfl⟩
  | cons x rest ih =>
    intro s ps us s1 ps1 us1 h
    unfold tickSuspectsAux at h
    split at h
    · cases h
    · next sm psm usm hstep =>
      obtain ⟨c1, c2, c3, c4, c5, c6, c7⟩ :=
        tickSuspectStep_frame suspTOF s ps us x sm psm usm hstep
      obtain ⟨d1, d2, d3, d4, d5, d6, d7⟩ := ih sm psm usm s1 ps1 us1 h
      exact ⟨d1.trans c1, d2.trans c2, d3.trans c3, d4.trans c4,
        d5.trans c5, d6.trans c6, d7.trans c7⟩

theorem tickSuspects_frame (suspTOF : Nat → Int) (s s1 : StateM)
    (ps1 : List Packet) (us1 : List Update)
    (h : tickSuspects suspTOF s = some (s1, ps1, us1)) :
    s1.pingTarget = s.pingTarget ∧ s1.gotAck = s.gotAck ∧
    s1.id = s.id ∧ s1.incarnation = s.incarnation ∧
    s1.nPingReqs = s.nPingReqs ∧ s1.maxMsgs = s.maxMsgs ∧
    s1.pingReqs = s.pingReqs :=
  tickSuspectsAux_frame suspTOF (keys s.suspects) s [] [] s1 ps1 us1 h

end engine

namespace engine

theorem lookupA_isSome_iff_mem {α : Type} :
    ∀ (l : List (NodeId × α)) (k : NodeId),
      (lookupA l k).isSome ↔ k ∈ keys l := by
  intro l
  induction l with
  | nil => intro k; simp [lookupA, keys]
  | cons p rest ih =>
    intro k
    unfold lookupA
    by_cases h : p.1 = k
    · simp [h, keys]
    · rw [if_neg h]
      show (lookupA rest k).isSome ↔ k ∈ p.1 :: keys rest
      rw [ih, List.mem_cons]
      constructor
      · intro hx; exact Or.inr hx
      · intro hx
        cases hx with
        | inl hx => exact absurd hx.symm h
        | inr hx => exact hx

theorem lookupA_none_iff_not_mem {α : Type} (l : List (NodeId × α))
    (k : NodeId) : lookupA l k = none ↔ k ∉ keys l := by
  rw [← lookupA_isSome_iff_mem]
  cases lookupA l k <;> simp

theorem lookupA_insertA_self {α : Type} :
    ∀ (l : List (NodeId × α)) (k : NodeId) (v : α),
      lookupA (insertA l k v) k = some v := by
  intro l
  induction l with
  | nil => intro k v; simp [insertA, lookupA]
  | cons p rest ih =>
    intro k v
    unfold insertA
    by_cases h : p.1 = k
    · simp [h, lookupA]
    · rw [if_neg h]
      show lookupA (p :: insertA rest k v) k = some v
      unfold lookupA
      rw [if_neg h]
      exact ih k v

theorem lookupA_insertA_ne {α : Type} :
    ∀ (l : List (NodeId × α)) (k k2 : NodeId) (v : α), k2 ≠ k →
      lookupA (insertA l k v) k2 = lookupA l k2 := by
  intro l
  induction l with
  | nil =>
    intro k k2 v h
    simp only [insertA, lookupA]
    rw [if_neg (fun hc => h hc.symm)]
  | cons p rest ih =>
    intro k k2 v h
    unfold insertA
    by_cases hp : p.1 = k
    · rw [if_pos hp]
      unfold lookupA
      rw [if_neg (fun hc => h hc.symm), if_neg (by rw [hp]; exact fun hc => h hc.symm)]
    · rw [if_neg hp]
      show lookupA (p :: insertA rest k v) k2 = lookupA (p :: rest) k2
      unfold lookupA
      by_cases hq : p.1 = k2
      · rw [if_pos hq, if_pos hq]
      · rw [if_neg hq, if_neg hq]
        exact ih k k2 v h

theorem lookupA_eraseA_ne {α : Type} :
    ∀ (l : List (NodeId × α)) (k k2 : NodeId), k2 ≠ k →
      lookupA (eraseA l k) k2 = lookupA l k2 := by
  intro l
  induction l with
  | nil => intro k k2 h; rfl
  | cons p rest ih =>
    intro k k2 h
    unfold eraseA
    by_cases hp : p.1 = k
    · rw [if_pos hp]
      conv_rhs => unfold lookupA
      rw [if_neg (by rw [hp]; exact fun hc => h hc.symm)]
    · rw [if_neg hp]
      show lookupA (p :: eraseA rest k) k2 = lookupA (p :: rest) k2
      unfold lookupA
      by_cases hq : p.1 = k2
      · rw [if_pos hq, if_pos hq]
      · rw [if_neg hq, if_neg hq]
        exact ih k k2 h

theorem keys_eraseA {α : Type} :
    ∀ (l : List (NodeId × α)) (k : NodeId),
      keys (eraseA l k) = (keys l).erase k := by
  intro l
  induction l with
  | nil => intro k; rfl
  | cons p rest ih =>
    intro k
    unfold eraseA
    by_cases hp : p.1 = k
    · rw [if_pos hp]
      show keys rest = (p.1 :: keys rest).erase k
      rw [hp, List.erase_cons_head]
    · rw [if_neg hp]
      show p.1 :: keys (eraseA rest k) = (p.1 :: keys rest).erase k
      rw [ih k, List.erase_cons_tail (by simpa using hp)]

theorem keys_insertA_mem {α : Type} :
    ∀ (l : List (NodeId × α)) (k : NodeId) (v : α), k ∈ keys l →
      keys (insertA l k v) = keys l := by
  intro l
  induction l with
  | nil => intro k v h; simp [keys] at h
  | cons p rest ih =>
    intro k v h
    unfold insertA
    by_cases hp : p.1 = k
    · rw [if_pos hp]
      show k :: keys rest = p.1 :: keys rest
      rw [← hp]
    · rw [if_neg hp]
      show p.1 :: keys (insertA rest k v) = p.1 :: keys rest
      rw [ih k v]
      rcases (List.mem_cons.mp h) with hx | hx
      · exact absurd hx.symm hp
      · exact hx

theorem keys_insertA_not_mem {α : Type} :
    ∀ (l : List (NodeId × α)) (k : NodeId) (v : α), k ∉ keys l →
      keys (insertA l k v) = keys l ++ [k] := by
  intro l
  induction l with
  | nil => intro k v h; rfl
  | cons p rest ih =>
    intro k v h
    unfold insertA
    by_cases hp : p.1 = k
    · exact absurd (List.mem_cons.mpr (Or.inl hp.symm)) h
    · rw [if_neg hp]
      show p.1 :: keys (insertA rest k v) = (p.1 :: keys rest) ++ [k]
      rw [ih k v (fun hc => h (List.mem_cons_of_mem _ hc))]
      rfl

end engine

theorem ensureSuspect_msgQueue (s : engine.StateM) :
    (engine.ensureSuspect s).msgQueue = s.msgQueue := by
  unfold engine.ensureSuspect
  split <;> rfl

theorem tick_eq (quotaF suspTOF : Nat → Int) (cs : List Nat)
    (s s1 : engine.StateM) (ps1 : List engine.Packet)
    (us1 : List engine.Update)
    (h1 : engine.tickSuspects suspTOF s = some (s1, ps1, us1)) :
    engine.tick quotaF suspTOF cs s =
      (if (engine.tickAdvance (engine.tickPingCheck s1).1 cs).pingTarget = ""
        then
          some (engine.tickAdvance (engine.tickPingCheck s1).1 cs,
            ps1 ++ (engine.tickPingCheck s1).2, us1)
        else
          match engine.makePing quotaF
              (engine.tickAdvance (engine.tickPingCheck s1).1 cs)
              (engine.tickAdvance (engine.tickPingCheck s1).1 cs).pingTarget with
          | none => none
          | some r =>
            some (r.2, (ps1 ++ (engine.tickPingCheck s1).2) ++ [r.1], us1)) := by
  unfold engine.tick
  rw [h1]

/-- Claim C3: in a protocol period where the previous ping target got
no ack (gotAck is false) and — after the suspicion-timeout phase — is
still a member with profile `p`, tick puts the target into suspects
with counter 0 only if it was not already a suspect (an existing
counter is never reset: the resulting counter is the previous one when
there was one, 0 otherwise), enqueues the Suspected message about it
into the membership RPQ, and the returned packets contain the
single-message Ping addressed to the target carrying exactly that
message. -/
theorem claim_C3_expired_ping_target (quotaF suspTOF : Nat → Int)
    (cs : List Nat) (s s1 sf : engine.StateM) (ps1 ps : List engine.Packet)
    (us1 us : List engine.Update) (p : engine.Profile)
    (hga : s.gotAck = false)
    (h1 : engine.tickSuspects suspTOF s = some (s1, ps1, us1))
    (hm : engine.lookupA s1.members s.pingTarget = some p)
    (ht : engine.tick quotaF suspTOF cs s = some (sf, ps, us)) :
    engine.lookupA sf.suspects s.pingTarget =
      some ((engine.lookupA s1.suspects s.pingTarget).getD 0) ∧
    (engine.isSuspect s1 s.pingTarget = true → sf.suspects = s1.suspects) ∧
    (engine.tickPingCheck s1).1.msgQueue =
      rpq.Upsert s1.msgQueue s.pingTarget
        (engine.suspectMsgFor s.pingTarget p) ∧
    engine.makeMessagePing (engine.suspectMsgFor s.pingTarget p) ∈ ps := by
  have hfr := engine.tickSuspects_frame suspTOF s s1 ps1 us1 h1
  have hpt : s1.pingTarget = s.pingTarget := hfr.1
  have hga1 : s1.gotAck = false := by rw [hfr.2.1, hga]
  have hpc : engine.tickPingCheck s1 =
      ({ engine.ensureSuspect s1 with
          msgQueue := rpq.Upsert (engine.ensureSuspect s1).msgQueue
            s.pingTarget (engine.suspectMsgFor s.pingTarget p) },
        [engine.makeMessagePing (engine.suspectMsgFor s.pingTarget p)]) := by
    unfold engine.tickPingCheck
    rw [if_neg (by rw [hga1]; simp)]
    rw [hpt]
    rw [hm]
  rw [tick_eq quotaF suspTOF cs s s1 ps1 us1 h1] at ht
  have hsusE : sf.suspects = (engine.ensureSuspect s1).suspects := by
    split at ht
    · have h2 := Option.some.inj ht
      injection h2 with hA hrest
      rw [← hA]
      show (engine.tickPingCheck s1).1.suspects = _
      rw [hpc]
    · split at ht
      · cases ht
      · next r hmk =>
        have h2 := Option.some.inj ht
        injection h2 with hA hrest
        rw [← hA]
        unfold engine.makePing at hmk
        rw [show r = (r.1, r.2) from rfl] at hmk
        have hfrm := engine.makePacket_frame quotaF _ _ _ _ _ r.1 r.2 hmk
        rw [hfrm.1]
        show (engine.tickPingCheck s1).1.suspects = _
        rw [hpc]
  have hmem : engine.makeMessagePing
      (engine.suspectMsgFor s.pingTarget p) ∈ ps := by
    split at ht
    · have h2 := Option.some.inj ht
      injection h2 with hA hrest
      injection hrest with hB hC
      rw [← hB]
      show _ ∈ ps1 ++ (engine.tickPingCheck s1).2
      rw [hpc]
      simp
    · split at ht
      · cases ht
      · next r hmk =>
        have h2 := Option.some.inj ht
        injection h2 with hA hrest
        injection hrest with hB hC
        rw [← hB, hpc]
        simp
  refine ⟨?_, ?_, ?_, hmem⟩
  · rw [hsusE]
    unfold engine.ensureSuspect
    rw [hpt]
    split
    · next hsus =>
      unfold engine.isSuspect at hsus
      cases hc : engine.lookupA s1.suspects s.pingTarget with
      | none => rw [hc] at hsus; cases hsus
      | some c => rfl
    · next hsus =>
      unfold engine.isSuspect at hsus
      cases hc : engine.lookupA s1.suspects s.pingTarget with
      | none =>
        exact engine.lookupA_insertA_self s1.suspects s.pingTarget 0
      | some c => rw [hc] at hsus; simp at hsus
  · intro hsus
    rw [hsusE]
    unfold engine.ensureSuspect
    rw [hpt, if_pos hsus]
  · rw [hpc]
    show rpq.Upsert (engine.ensureSuspect s1).msgQueue _ _ = _
    rw [ensureSuspect_msgQueue]

theorem claim_C3_witness :
    engine.lookupA
      ({ sB with
          suspects := [("B", 0)],
          msgQueue := ⟨[⟨"B",
            { typ := .suspected, NodeID := "B", Addr := 7, Incarnation := 0,
              MemoID := "", Body := [] }, 1⟩]⟩ } : engine.StateM).suspects
      "B" = some ((engine.lookupA sB.suspects "B").getD 0) ∧
    (engine.isSuspect sB "B" = true →
      ({ sB with
          suspects := [("B", 0)],
          msgQueue := ⟨[⟨"B",
            { typ := .suspected, NodeID := "B", Addr := 7, Incarnation := 0,
              MemoID := "", Body := [] }, 1⟩]⟩ } : engine.StateM).suspects =
        sB.suspects) ∧
    (engine.tickPingCheck sB).1.msgQueue =
      rpq.Upsert sB.msgQueue "B" (engine.suspectMsgFor "B" ⟨0, true, 7⟩) ∧
    engine.makeMessagePing (engine.suspectMsgFor "B" ⟨0, true, 7⟩) ∈
      [{ typ := .ping, remoteID := "B", remoteAddr := 7, TargetID := "",
         TargetAddr := 0,
         Msgs := [{ typ := .suspected, NodeID := "B", Addr := 7,
                    Incarnation := 0, MemoID := "", Body := [] }] },
       { typ := .ping, remoteID := "B", remoteAddr := 7, TargetID := "",
         TargetAddr := 0,
         Msgs := [{ typ := .suspected, NodeID := "B", Addr := 7,
                    Incarnation := 0, MemoID := "", Body := [] }] }] :=
  claim_C3_expired_ping_target (fun _ => 3) (fun _ => 5) [] sB sB
    ({ sB with
        suspects := [("B", 0)],
        msgQueue := ⟨[⟨"B",
          { typ := .suspected, NodeID := "B", Addr := 7, Incarnation := 0,
            MemoID := "", Body := [] }, 1⟩]⟩ }) [] _ [] []
    ⟨0, true, 7⟩ rfl (by decide) (by decide) (by decide)

namespace rrr

theorem findIdx_go_spec {t : NodeId} :
    ∀ (l : List NodeId) (i k : Nat), List.findIdx? (· == t) l i = some k →
      i ≤ k ∧ k - i < l.length ∧ l.get? (k - i) = some t := by
  intro l
  induction l with
  | nil => intro i k h; rw [List.findIdx?_nil] at h; cases h
  | cons a rest ih =>
    intro i k h
    rw [List.findIdx?_cons] at h
    by_cases hp : a == t
    · rw [if_pos hp] at h
      have hk := (Option.some.inj h).symm
      subst hk
      have ha : a = t := by simpa using hp
      refine ⟨le_rfl, by simp, ?_⟩
      simp [ha]
    · rw [if_neg hp] at h
      obtain ⟨h1, h2, h3⟩ := ih (i + 1) k h
      refine ⟨by omega, by simp; omega, ?_⟩
      have hki : k - i = (k - (i + 1)) + 1 := by omega
      rw [hki]
      simpa using h3

theorem findIdx_spec {t : NodeId} (l : List NodeId) (k : Nat)
    (h : l.findIdx? (· == t) = some k) :
    k < l.length ∧ l.get? k = some t := by
  obtain ⟨_, h2, h3⟩ := findIdx_go_spec l 0 k h
  rw [Nat.sub_zero] at h2 h3
  exact ⟨h2, h3⟩

theorem shuffleAux_perm :
    ∀ (i : Nat) (l : List NodeId) (cs : List Nat),
      (shuffleAux l cs i).Perm l := by
  intro i
  induction i with
  | zero => intro l cs; exact List.Perm.refl l
  | succ i ih =>
    intro l cs
    unfold shuffleAux
    exact (ih _ _).trans (lswap_perm l _ _)

theorem shuffle_perm (l : List NodeId) (cs : List Nat) :
    (shuffle l cs).Perm l := shuffleAux_perm _ l cs

/-- Order well-formedness transported by Next: the elements are
permuted and the cursor stays in range. -/
theorem Next_spec (o : Order) (cs : List Nat) (h : o.next ≤ o.a.length) :
    (Next o cs).2.a.Perm o.a ∧ (Next o cs).2.next ≤ (Next o cs).2.a.length := by
  unfold Next
  split
  · next he => exact ⟨List.Perm.refl _, h⟩
  · next he =>
    have hne : o.a.length ≠ 0 := by
      intro hc
      exact he (List.isEmpty_iff.mpr (List.length_eq_zero.mp hc))
    split
    · next hn =>
      refine ⟨shuffle_perm o.a cs, ?_⟩
      show 1 ≤ (shuffle o.a cs).length
      have := (shuffle_perm o.a cs).length_eq
      omega
    · next hn =>
      exact ⟨List.Perm.refl _, by show o.next + 1 ≤ o.a.length; omega⟩

theorem addAt_spec (o : Order) (t : NodeId) (k : Nat)
    (h : o.next ≤ o.a.length) :
    (addAt o t k).a.Perm (t :: o.a) ∧
    (addAt o t k).next ≤ (addAt o t k).a.length := by
  unfold addAt
  have hbase : (o.a ++ [t]).Perm (t :: o.a) := List.perm_append_singleton t o.a
  split
  · next hk =>
    constructor
    · exact (lswap_perm _ _ _).trans hbase
    · rw [lswap_length]
      simp only [List.length_append, List.length_singleton]
      omega
  · next hk =>
    constructor
    · exact (lswap_perm _ _ _).trans hbase
    · rw [lswap_length]
      simp only [List.length_append, List.length_singleton]
      omega

theorem Add_spec (o : Order) (t : NodeId) (c : Nat)
    (h : o.next ≤ o.a.length) :
    (Add o t c).a.Perm (t :: o.a) ∧
    (Add o t c).next ≤ (Add o t c).a.length :=
  addAt_spec o t _ h

theorem removeAt_spec (o : Order) (k : Nat) (t : NodeId)
    (hk : k < o.a.length) (hg : o.a.get? k = some t)
    (h : o.next ≤ o.a.length) :
    (removeAt o k).a.Perm (o.a.erase t) ∧
    (removeAt o k).next ≤ (removeAt o k).a.length := by
  have hmem : t ∈ o.a := by
    have := List.get?_mem hg
    exact this
  have hrec := List.perm_cons_erase hmem
  unfold removeAt
  split
  · next hlt =>
    -- k < o.next: swap k with next-1, then with last, then dropLast
    have h1len : (lswap o.a k (o.next - 1)).length = o.a.length :=
      lswap_length _ _ _
    have hg1 : (lswap o.a k (o.next - 1)).get? (o.next - 1) = some t := by
      rw [lswap_get_snd o.a k (o.next - 1) hk (by omega)]
      exact hg
    have hg2 : (lswap (lswap o.a k (o.next - 1)) (o.next - 1)
        ((lswap o.a k (o.next - 1)).length - 1)).get?
        ((lswap o.a k (o.next - 1)).length - 1) = some t := by
      rw [lswap_get_snd _ (o.next - 1) _ (by omega) (by omega)]
      exact hg1
    have hperm2 : (lswap (lswap o.a k (o.next - 1)) (o.next - 1)
        ((lswap o.a k (o.next - 1)).length - 1)).Perm o.a :=
      (lswap_perm _ _ _).trans (lswap_perm _ _ _)
    have hlen2 : (lswap (lswap o.a k (o.next - 1)) (o.next - 1)
        ((lswap o.a k (o.next - 1)).length - 1)).length = o.a.length := by
      rw [lswap_length, lswap_length]
    constructor
    · -- dropLast removes t
      have hne : (lswap (lswap o.a k (o.next - 1)) (o.next - 1)
          ((lswap o.a k (o.next - 1)).length - 1)) ≠ [] := by
        intro hc
        rw [hc] at hlen2
        simp at hlen2
        omega
      have hlast : (lswap (lswap o.a k (o.next - 1)) (o.next - 1)
          ((lswap o.a k (o.next - 1)).length - 1)).getLast? = some t := by
        rw [List.getLast?_eq_get?, hlen2, ← h1len]
        exact hg2
      have hgl : (lswap (lswap o.a k (o.next - 1)) (o.next - 1)
          ((lswap o.a k (o.next - 1)).length - 1)).getLast hne = t :=
        Option.some.inj ((List.getLast?_eq_getLast _ hne).symm.trans hlast)
      have hsplit := List.dropLast_append_getLast hne
      rw [hgl] at hsplit
      have hperm3 : ((lswap (lswap o.a k (o.next - 1)) (o.next - 1)
          ((lswap o.a k (o.next - 1)).length - 1)).dropLast ++ [t]).Perm
          (t :: o.a.erase t) := by
        rw [hsplit]
        exact hperm2.trans hrec
      exact ((List.perm_append_singleton t _).symm.trans hperm3).cons_inv
    · simp only [List.length_dropLast, hlen2]
      omega
  · next hlt =>
    have hg2 : (lswap o.a k (o.a.length - 1)).get? (o.a.length - 1) = some t := by
      rw [lswap_get_snd o.a k (o.a.length - 1) hk (by omega)]
      exact hg
    have hlen2 : (lswap o.a k (o.a.length - 1)).length = o.a.length :=
      lswap_length _ _ _
    constructor
    · have hne : lswap o.a k (o.a.length - 1) ≠ [] := by
        intro hc
        rw [hc] at hlen2
        simp at hlen2
        omega
      have hlast : (lswap o.a k (o.a.length - 1)).getLast? = some t := by
        rw [List.getLast?_eq_get?, hlen2]
        exact hg2
      have hgl : (lswap o.a k (o.a.length - 1)).getLast hne = t :=
        Option.some.inj ((List.getLast?_eq_getLast _ hne).symm.trans hlast)
      have hsplit := List.dropLast_append_getLast hne
      rw [hgl] at hsplit
      have hperm3 : ((lswap o.a k (o.a.length - 1)).dropLast ++ [t]).Perm
          (t :: o.a.erase t) := by
        rw [hsplit]
        exact (lswap_perm _ _ _).trans hrec
      exact ((List.perm_append_singleton t _).symm.trans hperm3).cons_inv
    · simp only [List.length_dropLast, hlen2]
      omega

theorem Remove_spec (o : Order) (t : NodeId) (h : o.next ≤ o.a.length) :
    (Remove o t).a.Perm (o.a.erase t) ∧
    (Remove o t).next ≤ (Remove o t).a.length := by
  unfold Remove
  split
  · next k hf =>
    obtain ⟨hk, hg⟩ := findIdx_spec o.a k hf
    exact removeAt_spec o k t hk hg h
  · next hf =>
    have hnm : t ∉ o.a := by
      intro hc
      rw [List.findIdx?_eq_none_iff] at hf
      have := hf t hc
      simp at this
    rw [List.erase_of_not_mem hnm]
    exact ⟨List.Perm.refl _, h⟩

end rrr

namespace engine

theorem mem_insertS (l : List NodeId) (k y : NodeId) :
    y ∈ insertS l k ↔ y ∈ l ∨ y = k := by
  unfold insertS
  split
  · next hk =>
    constructor
    · intro hy; exact Or.inl hy
    · intro hy
      cases hy with
      | inl hy => exact hy
      | inr hy => rw [hy]; exact hk
  · simp

/-- Inv depends only on the member keys, the suspects, the removed set,
the order and the local id. -/
theorem Inv_of_same (s s2 : StateM) (h : Inv s)
    (hm : keys s2.members = keys s.members) (hs : s2.suspects = s.suspects)
    (hr : s2.removed = s.removed) (ho : s2.order = s.order)
    (hid : s2.id = s.id) : Inv s2 := by
  obtain ⟨ndm, nds, nxt, disj, subs, perm, idm, ids, idr⟩ := h
  exact ⟨by rw [hm]; exact ndm, by rw [hs]; exact nds,
    by rw [ho]; exact nxt,
    by rw [hm, hr]; exact disj, by rw [hs, hm]; exact subs,
    by rw [ho, hm]; exact perm, by rw [hid, hm]; exact idm,
    by rw [hid, hs]; exact ids, by rw [hid, hr]; exact idr⟩

theorem newStateMachine_inv (i : NodeId) : Inv (newStateMachine i) := by
  refine ⟨List.nodup_nil, List.nodup_nil, by simp [newStateMachine], ?_, ?_, ?_, ?_, ?_, ?_⟩ <;>
    simp [newStateMachine, keys]

theorem remove_inv (s : StateM) (x : NodeId) (h : Inv s) :
    Inv (remove s x).1 := by
  obtain ⟨ndm, nds, nxt, disj, subs, perm, idm, ids, idr⟩ := h
  unfold remove
  split
  · exact ⟨ndm, nds, nxt, disj, subs, perm, idm, ids, idr⟩
  · next p hp =>
    have hxm : x ∈ keys s.members := by
      rw [← lookupA_isSome_iff_mem]
      rw [hp]
      rfl
    have hkm : keys (eraseA s.members x) = (keys s.members).erase x :=
      keys_eraseA s.members x
    have hks : keys (eraseA s.suspects x) = (keys s.suspects).erase x :=
      keys_eraseA s.suspects x
    have hor := rrr.Remove_spec s.order x nxt
    refine ⟨?_, ?_, hor.2, ?_, ?_, ?_, ?_, ?_, ?_⟩
    · show (keys (eraseA s.members x)).Nodup
      rw [hkm]
      exact ndm.erase x
    · show (keys (eraseA s.suspects x)).Nodup
      rw [hks]
      exact nds.erase x
    · intro y hy
      show y ∉ insertS s.removed x
      rw [mem_insertS]
      rw [show keys ((⟨s.id, s.incarnation, eraseA s.members x,
        eraseA s.suspects x, insertS s.removed x, rrr.Remove s.order x,
        s.msgQueue, s.memoQueue, s.seenMemos, s.pingTarget, s.gotAck,
        s.pingReqs, s.nPingReqs, s.maxMsgs⟩ : StateM).members) =
        (keys s.members).erase x from hkm] at hy
      have hyne : y ≠ x := (ndm.mem_erase_iff.mp hy).1
      have hym : y ∈ keys s.members := (ndm.mem_erase_iff.mp hy).2
      exact fun hc => hc.elim (fun h1 => disj y hym h1) hyne
    · intro y hy
      rw [show keys ((⟨s.id, s.incarnation, eraseA s.members x,
        eraseA s.suspects x, insertS s.removed x, rrr.Remove s.order x,
        s.msgQueue, s.memoQueue, s.seenMemos, s.pingTarget, s.gotAck,
        s.pingReqs, s.nPingReqs, s.maxMsgs⟩ : StateM).suspects) =
        (keys s.suspects).erase x from hks] at hy
      have hyne : y ≠ x := (nds.mem_erase_iff.mp hy).1
      have hys : y ∈ keys s.suspects := (nds.mem_erase_iff.mp hy).2
      show y ∈ keys (eraseA s.members x)
      rw [hkm]
      rw [List.mem_erase_of_ne hyne]
      exact subs y hys
    · show (rrr.Remove s.order x).a.Perm (keys (eraseA s.members x))
      rw [hkm]
      exact hor.1.trans (perm.erase x)
    · show s.id ∉ keys (eraseA s.members x)
      rw [hkm]
      intro hc
      exact idm (List.mem_of_mem_erase hc)
    · show s.id ∉ keys (eraseA s.suspects x)
      rw [hks]
      intro hc
      exact ids (List.mem_of_mem_erase hc)
    · show s.id ∉ insertS s.removed x
      rw [mem_insertS]
      intro hc
      cases hc with
      | inl hc => exact idr hc
      | inr hc => rw [hc] at idm; exact idm hxm

end engine

namespace engine

theorem bumpSuspect_inv (s : StateM) (x : NodeId) (h : Inv s)
    (hx : x ∈ keys s.suspects) :
    Inv (bumpSuspect s x) ∧ keys (bumpSuspect s x).suspects = keys s.suspects := by
  obtain ⟨ndm, nds, nxt, disj, subs, perm, idm, ids, idr⟩ := h
  have hkeys : keys (insertA s.suspects x (suspectCount s x)) = keys s.suspects :=
    keys_insertA_mem s.suspects x _ hx
  refine ⟨⟨ndm, ?_, nxt, disj, ?_, perm, idm, ?_, idr⟩, hkeys⟩
  · show (keys (insertA s.suspects x (suspectCount s x))).Nodup
    rw [hkeys]; exact nds
  · intro y hy
    show y ∈ keys s.members
    rw [show keys ((bumpSuspect s x).suspects) =
      keys s.suspects from hkeys] at hy
    exact subs y hy
  · show s.id ∉ keys (insertA s.suspects x (suspectCount s x))
    rw [hkeys]; exact ids

theorem lastRites_inv (s : StateM) (x : NodeId) (p : Profile) (h : Inv s) :
    Inv (lastRites s x p) :=
  Inv_of_same s (lastRites s x p) h rfl rfl rfl rfl rfl

theorem tickSuspectStep_inv (suspTOF : Nat → Int) (s : StateM)
    (ps : List Packet) (us : List Update) (x : NodeId)
    (s1 : StateM) (ps1 : List Packet) (us1 : List Update)
    (h : Inv s) (hx : x ∈ keys s.suspects)
    (hst : tickSuspectStep suspTOF s ps us x = some (s1, ps1, us1)) :
    Inv s1 ∧ (∀ y, y ∈ keys s.suspects → y ≠ x → y ∈ keys s1.suspects) := by
  obtain ⟨hbi, hbk⟩ := bumpSuspect_inv s x h hx
  unfold tickSuspectStep at hst
  split at hst
  · split at hst
    · cases hst
    · next p hp =>
      have h2 := Option.some.inj hst
      injection h2 with hA hrest
      have hri := remove_inv (lastRites (bumpSuspect s x) x p) x
        (lastRites_inv (bumpSuspect s x) x p hbi)
      constructor
      · rw [← hA]; exact hri
      · intro y hy hne
        rw [← hA]
        show y ∈ keys (remove (lastRites (bumpSuspect s x) x p) x).1.suspects
        unfold remove
        split
        · next => show y ∈ keys (bumpSuspect s x).suspects; rw [hbk]; exact hy
        · next q hq =>
          show y ∈ keys (eraseA (bumpSuspect s x).suspects x)
          rw [keys_eraseA, List.mem_erase_of_ne hne, hbk]
          exact hy
  · have h2 := Option.some.inj hst
    injection h2 with hA hrest
    constructor
    · rw [← hA]; exact hbi
    · intro y hy hne
      rw [← hA]
      show y ∈ keys (bumpSuspect s x).suspects
      rw [hbk]
      exact hy

theorem tickSuspectsAux_inv (suspTOF : Nat → Int) :
    ∀ (xs : List NodeId) (s : StateM) (ps : List Packet) (us : List Update)
      (out : StateM × List Packet × List Update),
      Inv s → xs.Nodup → (∀ y ∈ xs, y ∈ keys s.suspects) →
      tickSuspectsAux suspTOF s ps us xs = some out → Inv out.1 := by
  intro xs
  induction xs with
  | nil =>
    intro s ps us out h _ _ hst
    unfold tickSuspectsAux at hst
    have h2 := Option.some.inj hst
    rw [← h2]
    exact h
  | cons x rest ih =>
    intro s ps us out h hnd hsub hst
    unfold tickSuspectsAux at hst
    split at hst
    · cases hst
    · next sm psm usm hstep =>
      obtain ⟨hin, hkeep⟩ := tickSuspectStep_inv suspTOF s ps us x sm psm usm
        h (hsub x (List.mem_cons_self x rest)) hstep
      refine ih sm psm usm out hin (List.Nodup.of_cons hnd) ?_ hst
      intro y hy
      exact hkeep y (hsub y (List.mem_cons_of_mem x hy))
        (fun hc => (List.nodup_cons.mp hnd).1 (hc ▸ hy))

theorem tickSuspects_inv (suspTOF : Nat → Int) (s : StateM)
    (out : StateM × List Packet × List Update) (h : Inv s)
    (hst : tickSuspects suspTOF s = some out) : Inv out.1 :=
  tickSuspectsAux_inv suspTOF (keys s.suspects) s [] [] out h
    h.2.1 (fun _ hy => hy) hst

theorem ensureSuspect_inv (s : StateM) (p : Profile) (h : Inv s)
    (hm : lookupA s.members s.pingTarget = some p) :
    Inv (ensureSuspect s) := by
  obtain ⟨ndm, nds, nxt, disj, subs, perm, idm, ids, idr⟩ := h
  have hptm : s.pingTarget ∈ keys s.members := by
    rw [← lookupA_isSome_iff_mem, hm]; rfl
  have hne : s.id ≠ s.pingTarget := fun hc => idm (hc ▸ hptm)
  unfold ensureSuspect
  split
  · exact ⟨ndm, nds, nxt, disj, subs, perm, idm, ids, idr⟩
  · next hns =>
    have hnsm : s.pingTarget ∉ keys s.suspects := by
      rw [← lookupA_isSome_iff_mem]
      unfold isSuspect at hns
      simpa using hns
    have hkeys : keys (insertA s.suspects s.pingTarget 0) =
        keys s.suspects ++ [s.pingTarget] :=
      keys_insertA_not_mem s.suspects s.pingTarget 0 hnsm
    refine ⟨ndm, ?_, nxt, disj, ?_, perm, idm, ?_, idr⟩
    · show (keys (insertA s.suspects s.pingTarget 0)).Nodup
      rw [hkeys]
      simp only [List.nodup_append, List.nodup_singleton]
      exact ⟨nds, trivial, by simpa using hnsm⟩
    · intro y hy
      show y ∈ keys s.members
      have hy2 : y ∈ keys (insertA s.suspects s.pingTarget 0) := hy
      rw [hkeys] at hy2
      rcases List.mem_append.mp hy2 with hy | hy
      · exact subs y hy
      · rw [List.mem_singleton.mp hy]
        exact hptm
    · show s.id ∉ keys (insertA s.suspects s.pingTarget 0)
      rw [hkeys]
      simp only [List.mem_append, List.mem_singleton]
      exact fun hc => hc.elim ids hne

theorem tickPingCheck_inv (s : StateM) (h : Inv s) :
    Inv (tickPingCheck s).1 := by
  unfold tickPingCheck
  split
  · exact h
  · split
    · exact h
    · next p hp =>
      exact Inv_of_same (ensureSuspect s) _ (ensureSuspect_inv s p h hp)
        rfl rfl rfl rfl rfl

theorem tickAdvance_inv (s : StateM) (cs : List Nat) (h : Inv s) :
    Inv (tickAdvance s cs) := by
  obtain ⟨ndm, nds, nxt, disj, subs, perm, idm, ids, idr⟩ := h
  have hor := rrr.Next_spec s.order cs nxt
  exact ⟨ndm, nds, hor.2, disj, subs, hor.1.trans perm, idm, ids, idr⟩

theorem tick_inv (quotaF suspTOF : Nat → Int) (cs : List Nat) (s : StateM)
    (r : StateM × List Packet × List Update) (h : Inv s)
    (ht : tick quotaF suspTOF cs s = some r) : Inv r.1 := by
  unfold tick at ht
  split at ht
  · cases ht
  · next s1 ps1 us1 hts =>
    have h1 := tickSuspects_inv suspTOF s (s1, ps1, us1) h hts
    have h2 := tickPingCheck_inv s1 h1
    have h3 := tickAdvance_inv (tickPingCheck s1).1 cs h2
    split at ht
    · rw [← Option.some.inj ht]
      exact h3
    · split at ht
      · cases ht
      · next r2 hmk =>
        rw [← Option.some.inj ht]
        unfold makePing at hmk
        rw [show r2 = (r2.1, r2.2) from rfl] at hmk
        have hfrm := makePacket_frame quotaF _ _ _ _ _ r2.1 r2.2 hmk
        show Inv r2.2
        exact Inv_of_same _ _ h3 hfrm.2.2.2.2.2.2.2.1 hfrm.1 hfrm.2.1
          hfrm.2.2.1 hfrm.2.2.2.2.2.1

end engine

namespace engine

theorem makePacket_inv (quotaF : Nat → Int) (s : StateM) (typ : PacketType)
    (dst target : NodeId) (ta : Nat) (pk : Packet) (s2 : StateM) (h : Inv s)
    (hmk : makePacket quotaF s typ dst target ta = some (pk, s2)) : Inv s2 := by
  have hfrm := makePacket_frame quotaF s typ dst target ta pk s2 hmk
  exact Inv_of_same _ _ h hfrm.2.2.2.2.2.2.2.1 hfrm.1 hfrm.2.1
    hfrm.2.2.1 hfrm.2.2.2.2.2.1

theorem timeoutAux_inv (quotaF : Nat → Int) (target : NodeId) :
    ∀ (xs : List NodeId) (s : StateM) (ps : List Packet)
      (out : StateM × List Packet),
      Inv s → timeoutAux quotaF target s ps xs = some out → Inv out.1 := by
  intro xs
  induction xs with
  | nil =>
    intro s ps out h hst
    unfold timeoutAux at hst
    rw [← Option.some.inj hst]
    exact h
  | cons dst rest ih =>
    intro s ps out h hst
    unfold timeoutAux at hst
    split at hst
    · cases hst
    · split at hst
      · cases hst
      · next pk s1 hmk =>
        exact ih s1 _ out (makePacket_inv quotaF s _ dst target _ pk s1 h hmk) hst

theorem timeout_inv (quotaF : Nat → Int) (cs : List Nat) (s : StateM)
    (out : StateM × List Packet) (h : Inv s)
    (hst : timeout quotaF cs s = some out) : Inv out.1 := by
  unfold timeout at hst
  split at hst
  · rw [← Option.some.inj hst]
    exact h
  · exact timeoutAux_inv quotaF s.pingTarget _ s [] out h hst

theorem ackLoop_inv (quotaF : Nat → Int) (p : Packet) :
    ∀ (xs : List (NodeId × NodeId)) (s : StateM) (ps : List Packet)
      (out : StateM × List Packet),
      Inv s → ackLoop quotaF p s ps xs = some out → Inv out.1 := by
  intro xs
  induction xs with
  | nil =>
    intro s ps out h hst
    unfold ackLoop at hst
    rw [← Option.some.inj hst]
    exact h
  | cons e rest ih =>
    intro s ps out h hst
    unfold ackLoop at hst
    split at hst
    · split at hst
      · cases hst
      · next pk s1 hmk =>
        have h1 := makePacket_inv quotaF s _ e.1 p.remoteID _ pk s1 h hmk
        refine ih _ _ out ?_ hst
        exact Inv_of_same _ s1 h1 rfl rfl rfl rfl rfl
    · exact ih s ps out h hst

theorem ackGot_inv (s : StateM) (p : Packet) (h : Inv s) : Inv (ackGot s p) := by
  unfold ackGot
  split
  · exact Inv_of_same _ s h rfl rfl rfl rfl rfl
  · exact h

theorem processPacketType_inv (quotaF : Nat → Int) (s : StateM) (p : Packet)
    (out : StateM × List Packet) (h : Inv s)
    (hst : processPacketType quotaF s p = some out) : Inv out.1 := by
  unfold processPacketType at hst
  split at hst
  · rw [Option.map_eq_some'] at hst
    obtain ⟨r0, hmk, hr⟩ := hst
    rw [← hr]
    show Inv r0.2
    unfold makeAck at hmk
    rw [show r0 = (r0.1, r0.2) from rfl] at hmk
    exact makePacket_inv quotaF s _ p.remoteID _ _ r0.1 r0.2 h hmk
  · rw [Option.map_eq_some'] at hst
    obtain ⟨r0, hmk, hr⟩ := hst
    rw [← hr]
    show Inv r0.2
    unfold makePing at hmk
    rw [show r0 = (r0.1, r0.2) from rfl] at hmk
    refine makePacket_inv quotaF _ _ p.TargetID _ _ r0.1 r0.2 ?_ hmk
    exact Inv_of_same _ s h rfl rfl rfl rfl rfl
  · exact ackLoop_inv quotaF p _ (ackGot s p) [] out (ackGot_inv s p h) hst

end engine

namespace engine

theorem joinStep_inv (s : StateM) (m : Message) (c : Nat) (h : Inv s)
    (hne : m.NodeID ≠ s.id)
    (hnr : m.NodeID ∉ keys s.members → m.NodeID ∉ s.removed) :
    Inv (joinStep s m c).1 ∧ m.NodeID ∈ keys (joinStep s m c).1.members ∧
    (joinStep s m c).1.suspects = s.suspects ∧
    (joinStep s m c).1.removed = s.removed ∧
    (joinStep s m c).1.id = s.id := by
  obtain ⟨ndm, nds, nxt, disj, subs, perm, idm, ids, idr⟩ := h
  unfold joinStep
  split
  · next hm =>
    refine ⟨⟨ndm, nds, nxt, disj, subs, perm, idm, ids, idr⟩, ?_, rfl, rfl, rfl⟩
    rw [← lookupA_isSome_iff_mem]
    exact hm
  · next hm =>
    have hni : m.NodeID ∉ keys s.members := by
      rw [← lookupA_isSome_iff_mem]
      unfold isMember at hm
      simpa using hm
    have hkeys : keys (insertA s.members m.NodeID ⟨0, false, 0⟩) =
        keys s.members ++ [m.NodeID] :=
      keys_insertA_not_mem s.members m.NodeID _ hni
    have hadd := rrr.Add_spec s.order m.NodeID c nxt
    refine ⟨⟨?_, nds, hadd.2, ?_, ?_, ?_, ?_, ids, idr⟩, ?_, rfl, rfl, rfl⟩
    · show (keys (insertA s.members m.NodeID ⟨0, false, 0⟩)).Nodup
      rw [hkeys]
      simp only [List.nodup_append, List.nodup_singleton]
      exact ⟨ndm, trivial, by simpa using hni⟩
    · intro x hx
      have hx2 : x ∈ keys s.members ++ [m.NodeID] := by
        rw [← hkeys]; exact hx
      rcases List.mem_append.mp hx2 with hx | hx
      · exact disj x hx
      · rw [List.mem_singleton.mp hx]
        exact hnr hni
    · intro x hx
      show x ∈ keys (insertA s.members m.NodeID ⟨0, false, 0⟩)
      rw [hkeys]
      exact List.mem_append.mpr (Or.inl (subs x hx))
    · show (rrr.Add s.order m.NodeID c).a.Perm
        (keys (insertA s.members m.NodeID ⟨0, false, 0⟩))
      rw [hkeys]
      exact hadd.1.trans ((perm.cons m.NodeID).trans
        (List.perm_append_singleton m.NodeID (keys s.members)).symm)
    · show s.id ∉ keys (insertA s.members m.NodeID ⟨0, false, 0⟩)
      rw [hkeys]
      simp only [List.mem_append, List.mem_singleton]
      exact fun hc => hc.elim idm (fun he => hne he.symm)
    · show m.NodeID ∈ keys (insertA s.members m.NodeID ⟨0, false, 0⟩)
      rw [hkeys]
      exact List.mem_append.mpr (Or.inr (List.mem_singleton.mpr rfl))

theorem recordMsg_inv (s : StateM) (m : Message) (h : Inv s) :
    Inv (recordMsg s m) ∧ keys (recordMsg s m).members = keys s.members :=
  ⟨Inv_of_same s (recordMsg s m) h (keys_updateProfile s.members m.NodeID _)
    rfl rfl rfl rfl, keys_updateProfile s.members m.NodeID _⟩

theorem suspectUpdate_inv (s : StateM) (m : Message) (h : Inv s)
    (hmem : m.NodeID ∈ keys s.members) (hne : m.NodeID ≠ s.id) :
    Inv (suspectUpdate s m) := by
  obtain ⟨ndm, nds, nxt, disj, subs, perm, idm, ids, idr⟩ := h
  unfold suspectUpdate
  split
  · refine ⟨ndm, ?_, nxt, disj, ?_, perm, idm, ?_, idr⟩
    · show (keys (eraseA s.suspects m.NodeID)).Nodup
      rw [keys_eraseA]
      exact nds.erase m.NodeID
    · intro x hx
      have hx2 : x ∈ (keys s.suspects).erase m.NodeID := by
        rw [← keys_eraseA]; exact hx
      exact subs x (List.mem_of_mem_erase hx2)
    · show s.id ∉ keys (eraseA s.suspects m.NodeID)
      rw [keys_eraseA]
      exact fun hc => ids (List.mem_of_mem_erase hc)
  · by_cases hs : m.NodeID ∈ keys s.suspects
    · have hkeys : keys (insertA s.suspects m.NodeID 0) = keys s.suspects :=
        keys_insertA_mem s.suspects m.NodeID 0 hs
      refine ⟨ndm, ?_, nxt, disj, ?_, perm, idm, ?_, idr⟩
      · show (keys (insertA s.suspects m.NodeID 0)).Nodup
        rw [hkeys]; exact nds
      · intro x hx
        have hx2 : x ∈ keys s.suspects := by rw [← hkeys]; exact hx
        exact subs x hx2
      · show s.id ∉ keys (insertA s.suspects m.NodeID 0)
        rw [hkeys]; exact ids
    · have hkeys : keys (insertA s.suspects m.NodeID 0) =
          keys s.suspects ++ [m.NodeID] :=
        keys_insertA_not_mem s.suspects m.NodeID 0 hs
      refine ⟨ndm, ?_, nxt, disj, ?_, perm, idm, ?_, idr⟩
      · show (keys (insertA s.suspects m.NodeID 0)).Nodup
        rw [hkeys]
        simp only [List.nodup_append, List.nodup_singleton]
        exact ⟨nds, trivial, by simpa using hs⟩
      · intro x hx
        have hx2 : x ∈ keys s.suspects ++ [m.NodeID] := by
          rw [← hkeys]; exact hx
        rcases List.mem_append.mp hx2 with hx | hx
        · exact subs x hx
        · rw [List.mem_singleton.mp hx]
          exact hmem
      · show s.id ∉ keys (insertA s.suspects m.NodeID 0)
        rw [hkeys]
        simp only [List.mem_append, List.mem_singleton]
        exact fun hc => hc.elim ids (fun he => hne he.symm)
  · exact ⟨ndm, nds, nxt, disj, subs, perm, idm, ids, idr⟩

theorem updateStatus_inv (s : StateM) (m : Message) (c : Nat) (h : Inv s)
    (hne : m.NodeID ≠ s.id)
    (hnr : m.NodeID ∉ keys s.members → m.NodeID ∉ s.removed) :
    Inv (updateStatus s m c).1 := by
  unfold updateStatus
  split
  · exact remove_inv s m.NodeID h
  · obtain ⟨hji, hjm, hjs, hjr, hjid⟩ := joinStep_inv s m c h hne hnr
    obtain ⟨hri, hrk⟩ := recordMsg_inv (joinStep s m c).1 m hji
    refine suspectUpdate_inv _ m hri ?_ ?_
    · rw [hrk]; exact hjm
    · show m.NodeID ≠ (recordMsg (joinStep s m c).1 m).id
      rw [show (recordMsg (joinStep s m c).1 m).id = (joinStep s m c).1.id
        from rfl, hjid]
      exact hne

end engine

namespace engine

theorem selfRefute_inv (s : StateM) (h : Inv s) : Inv (selfRefute s) :=
  Inv_of_same _ s h rfl rfl rfl rfl rfl

theorem acceptMemo_inv (s : StateM) (m : Message) (h : Inv s) :
    Inv (acceptMemo s m) :=
  Inv_of_same _ s h rfl rfl rfl rfl rfl

theorem processMsg_inv (s : StateM) (m : Message) (c : Nat) (h : Inv s) :
    Inv (processMsg s m c).1 := by
  unfold processMsg
  split
  · split
    · exact selfRefute_inv s h
    · exact h
  · next hne =>
    split
    · split
      · exact h
      · exact acceptMemo_inv s m h
    · next hmemo =>
      split
      · next hnews =>
        have hnr : m.NodeID ∉ keys s.members → m.NodeID ∉ s.removed := by
          intro hni
          have hlk : lookupA s.members m.NodeID = none :=
            (lookupA_none_iff_not_mem s.members m.NodeID).mpr hni
          unfold isMemberNews at hnews
          rw [if_neg hmemo, hlk] at hnews
          simpa using hnews
        have hus := updateStatus_inv s m c h hne hnr
        exact Inv_of_same _ (updateStatus s m c).1 hus rfl rfl rfl rfl rfl
      · exact h

theorem receiveMsgsAux_inv (p : Packet) :
    ∀ (l : List Message) (s : StateM) (us : List Update) (ms : List Memo)
      (cs : List Nat), Inv s → Inv (receiveMsgsAux p s us ms cs l).1 := by
  intro l
  induction l with
  | nil => intro s us ms cs h; exact h
  | cons m rest ih =>
    intro s us ms cs h
    unfold receiveMsgsAux
    split
    · exact ih _ _ _ _ (processMsg_inv s (patchAddr p m) (cs.headD 0) h)
    · exact processMsg_inv s (patchAddr p m) (cs.headD 0) h

theorem receive_inv (quotaF : Nat → Int) (cs : List Nat) (s : StateM)
    (p : Packet) (out : StateM × List Packet × List Update × List Memo × Bool)
    (h : Inv s) (hst : receive quotaF cs s p = some out) : Inv out.1 := by
  unfold receive at hst
  split at hst
  · rw [← Option.some.inj hst]
    exact h
  · split at hst
    · split at hst
      · cases hst
      · next r hpp =>
        rw [← Option.some.inj hst]
        show Inv r.1
        exact processPacketType_inv quotaF _ p r
          (receiveMsgsAux_inv p p.Msgs s [] [] cs h) hpp
    · rw [← Option.some.inj hst]
      exact receiveMsgsAux_inv p p.Msgs s [] [] cs h

theorem addMemo_inv (s : StateM) (memoID : NodeId) (b : List Nat) (h : Inv s) :
    Inv (addMemo s memoID b) :=
  Inv_of_same _ s h rfl rfl rfl rfl rfl

theorem PostMemo_inv (s : StateM) (memoID : NodeId) (b : List Nat)
    (h : Inv s) : Inv (PostMemo s memoID b).2 := by
  unfold PostMemo
  split
  · exact h
  · exact addMemo_inv s memoID b h

theorem Reachable_inv (s : StateM) (h : Reachable s) : Inv s := by
  induction h with
  | init i => exact newStateMachine_inv i
  | tickStep quotaF suspTOF cs s r _ ht ih => exact tick_inv quotaF suspTOF cs s r ih ht
  | timeoutStep quotaF cs s r _ ht ih => exact timeout_inv quotaF cs s r ih ht
  | receiveStep quotaF cs s p r _ ht ih => exact receive_inv quotaF cs s p r ih ht
  | postMemoStep s memoID b _ ih => exact PostMemo_inv s memoID b ih

end engine

/-- C5: After every engine operation (tick, timeout, receive, addMemo via
PostMemo) starting from a reachable state, the member-table invariants
hold: no id is simultaneously in members and in removed; every id in
suspects is in members; the round-robin order contains exactly the ids
of members, each once (a permutation of the member keys, which are
themselves without duplicates); and the local node's own id is in none
of members, suspects, or removed. -/
theorem claim_C5_member_invariants (s : engine.StateM)
    (h : engine.Reachable s) :
    engine.MemberInv s ∧ (engine.keys s.members).Nodup :=
  ⟨(engine.Reachable_inv s h).2.2.2, (engine.Reachable_inv s h).1⟩

theorem claim_C5_witness :
    engine.MemberInv (engine.newStateMachine "A") ∧
    (engine.keys (engine.newStateMachine "A").members).Nodup :=
  claim_C5_member_invariants (engine.newStateMachine "A")
    (engine.Reachable.init "A")
